import Mathlib

/-!
# d-voting: election types and admin form

A shallow embedding of `contracts/evoting/types/election.go` and
`contracts/evoting/types/admin.go`, with the properties of the bulletin board,
the admin list, the status codes, the configuration checks, the semi-random
stream and the ElGamal pairs of the ballots, and a model of the DKG actor of
`services/dkg` from the spec.

Conventions of the embedding:
* a Go slice is a `List`; a Go `string` is a `String`; Go `int` is an `Int`
  kept inside the 64-bit range by the operations that produce it;
* a method with a pointer receiver takes the receiver's value and returns the
  new value;
* a run-time panic (index out of range) is the result `none`;
* a Go `error` result is an `Option` of an error value, `none` being `nil`.
-/

namespace DVoting

/-! ## Bytes, ciphertexts and ballots -/

/-- A Go `byte`. -/
abbrev Byte := Fin 256

/-- Modelled from the spec: the declaration of `Ciphertext` and its `Copy`
method are not among the sources at hand. The spec describes a ciphertext as
the ordered pair (K, C); the ballot code reads it through `GetPoints` and
builds it through `FromPoints`, so the two components are kept as the byte
strings of the two encoded points. -/
structure Ciphertext where
  K : List Byte
  C : List Byte
deriving DecidableEq, Repr

/-- Modelled from the spec: `Ciphertext.Copy` is not among the sources at
hand; a deep copy allocates two fresh byte slices and fills them with the
bytes of `K` and of `C`. -/
def Ciphertext.Copy (ct : Ciphertext) : Ciphertext :=
  { K := [] ++ ct.K, C := [] ++ ct.C }

/-- The Go type `EncryptedBallot`, a list of `Ciphertext`. -/
abbrev EncryptedBallot := List Ciphertext

/-- The Go type `EncryptedBallots`, a list of `EncryptedBallot`. -/
abbrev EncryptedBallots := List EncryptedBallot

/-- The method `EncryptedBallot.Copy`: a new slice of the same length whose
entry `i` is the copy of entry `i`. -/
def EncryptedBallot.Copy (b : EncryptedBallot) : EncryptedBallot :=
  b.map Ciphertext.Copy

/-! ## The public bulletin board -/

/-- The Go struct `PublicBulletinBoard`: two parallel slices. -/
structure PublicBulletinBoard where
  UserIDs : List String
  Ballots : EncryptedBallots
deriving DecidableEq, Repr

/-- The loop `for i, u := range p.UserIDs { if u == userID { ... return } }`
shared by `CastVote`, `GetBallotFromUser` and `DeleteUser`: the index at which
the body is entered, counting from `i`, or `none` when the loop runs to its
end. -/
def rangeUserIDs (userID : String) : List String → Nat → Option Nat
  | [], _ => none
  | u :: us, i => if u = userID then some i else rangeUserIDs userID us (i + 1)

/-- The method `PublicBulletinBoard.CastVote`. The assignment
`p.Ballots[i] = encryptedVote` panics when `i` is not an index of `Ballots`. -/
def PublicBulletinBoard.CastVote (p : PublicBulletinBoard) (userID : String)
    (encryptedVote : EncryptedBallot) : Option PublicBulletinBoard :=
  match rangeUserIDs userID p.UserIDs 0 with
  | some i =>
    if i < p.Ballots.length then
      some { p with Ballots := p.Ballots.set i encryptedVote }
    else none
  | none =>
    some { UserIDs := p.UserIDs ++ [userID],
           Ballots := p.Ballots ++ [encryptedVote.Copy] }

/-- The method `PublicBulletinBoard.GetBallotFromUser`. The read
`p.Ballots[i]` panics when `i` is not an index of `Ballots`;
`EncryptedBallot{}` is the empty ballot. -/
def PublicBulletinBoard.GetBallotFromUser (p : PublicBulletinBoard)
    (userID : String) : Option (EncryptedBallot × Bool) :=
  match rangeUserIDs userID p.UserIDs 0 with
  | some i =>
    match p.Ballots.get? i with
    | some b => some (b.Copy, true)
    | none => none
  | none => some ([], false)

/-- The board as `GetBallotFromUser` leaves it when it returns: the method
reads `p.UserIDs` and `p.Ballots` and assigns to neither, and the ballot it
hands out is a copy. -/
def PublicBulletinBoard.afterGetBallotFromUser (p : PublicBulletinBoard)
    (userID : String) : Option PublicBulletinBoard :=
  (p.GetBallotFromUser userID).map (fun _ => p)

/-- The method `PublicBulletinBoard.DeleteUser`: the returned boolean and the
board as the call leaves it. The slice expression `p.Ballots[i+1:]` panics when
`i+1` exceeds the length of `Ballots`. -/
def PublicBulletinBoard.DeleteUser (p : PublicBulletinBoard) (userID : String) :
    Option (Bool × PublicBulletinBoard) :=
  match rangeUserIDs userID p.UserIDs 0 with
  | some i =>
    if i + 1 ≤ p.Ballots.length then
      some (true,
        { UserIDs := p.UserIDs.take i ++ p.UserIDs.drop (i + 1),
          Ballots := p.Ballots.take i ++ p.Ballots.drop (i + 1) })
    else none
  | none => some (false, p)

/-- A call that changes a bulletin board. -/
inductive BoardOp where
  | CastVote (userID : String) (encryptedVote : EncryptedBallot)
  | DeleteUser (userID : String)
deriving DecidableEq, Repr

/-- One call on a board: the board it leaves, `none` when it panics. -/
def PublicBulletinBoard.call (p : PublicBulletinBoard) :
    BoardOp → Option PublicBulletinBoard
  | BoardOp.CastVote userID encryptedVote => p.CastVote userID encryptedVote
  | BoardOp.DeleteUser userID => (p.DeleteUser userID).map Prod.snd

/-- A sequence of calls, one after the other. -/
def PublicBulletinBoard.calls (p : PublicBulletinBoard) :
    List BoardOp → Option PublicBulletinBoard
  | [] => some p
  | op :: ops =>
    match p.call op with
    | none => none
    | some q => q.calls ops

/-! ## The semi-random stream -/

/-- The loop of Go's `binary.Uvarint` (standard library) over the bytes left,
at index `i`, with the value `x` gathered so far and the shift `s`; the
arithmetic is that of `uint64`. The result is the value and the number of
bytes read: 0 when the buffer ends before a byte below 0x80, negative on
overflow. -/
def uvarintLoop : List Byte → Nat → Nat → Nat → Nat × Int
  | [], _, _, _ => (0, 0)
  | b :: rest, i, x, s =>
    if i = 10 then (0, -((i : Int) + 1))
    else if b.val < 0x80 then
      if i = 9 ∧ b.val > 1 then (0, -((i : Int) + 1))
      else (x ||| ((b.val <<< s) % 2 ^ 64), (i : Int) + 1)
    else
      uvarintLoop rest (i + 1) (x ||| (((b.val &&& 0x7f) <<< s) % 2 ^ 64)) (s + 7)

/-- Go's `binary.Uvarint`. -/
def Uvarint (buf : List Byte) : Nat × Int :=
  uvarintLoop buf 0 0 0

/-- Go's `binary.Varint`: the zig-zag decoding of `Uvarint`,
`x := int64(ux >> 1); if ux&1 != 0 { x = ^x }`. -/
def Varint (buf : List Byte) : Int × Int :=
  let r := Uvarint buf
  let x : Int := ((r.1 >>> 1 : Nat) : Int)
  (if r.1 &&& 1 ≠ 0 then -x - 1 else x, r.2)

/-- The Go struct `SemiRandomStream`. The field `stream` is the generator
`rand.New(rand.NewSource(s))`, which the integer `s` given to the source
determines; `none` is the nil pointer of the zero value. -/
structure SemiRandomStream where
  seed : List Byte
  stream : Option Int
deriving DecidableEq, Repr

/-- The error of `NewSemiRandomStream`. -/
inductive StreamError where
  /-- The text "the seed has a wrong size (too small)" -/
  | wrongSize
deriving DecidableEq, Repr

/-- The function `NewSemiRandomStream`: the returned stream and error. -/
def NewSemiRandomStream (seed : List Byte) :
    SemiRandomStream × Option StreamError :=
  let seed := if seed.length > 8 then seed.take 8 else seed
  let r := Varint seed
  if r.2 ≤ 0 then (⟨[], none⟩, some StreamError.wrongSize)
  else (⟨seed, some r.1⟩, none)

/-- The value of a base-128 varint: the low seven bits of each byte are a
digit, least significant digit first. -/
def base128 : List Byte → Nat
  | [] => 0
  | b :: bs => b.val % 128 + 128 * base128 bs

/-- The zig-zag decoding of an unsigned value: the even values are 0, 1, 2, ...
and the odd ones -1, -2, -3, ... -/
def zigzag (u : Nat) : Int :=
  if u % 2 = 1 then -((u / 2 : Nat) : Int) - 1 else ((u / 2 : Nat) : Int)

/-! ## ElGamal pairs of the ballots

The type of the points (`kyber.Point`) is a parameter, and so are the two
methods of `Ciphertext` that election.go calls and whose code is not among the
sources at hand: `GetPoints`, which decodes the two points of a ciphertext or
fails, and `FromPoints`, which encodes two points into a ciphertext or fails. -/

/-- The errors built by `xerrors.Errorf` in the ballot conversions of
election.go, one per call site. -/
inductive BallotError where
  /-- The text "there are no ballots" -/
  | noBallots
  /-- The text "failed to get points: ..." -/
  | getPoints
  /-- The text "X and Y must have same length: ..." -/
  | lengthXY
  /-- The text "El Gamal pairs are empty" -/
  | emptyPairs
  /-- The text "ks and cs must have same length: ..." -/
  | lengthKsCs
  /-- The text "failed to init ciphertext: ..." -/
  | initCiphertext
deriving DecidableEq, Repr

/-- The method `EncryptedBallot.GetElGPairs`: the K points and the C points of
the ciphertexts in order, or the error of the first ciphertext that does not
decode. -/
def EncryptedBallot.GetElGPairs {Point : Type}
    (GetPoints : Ciphertext → Option (Point × Point)) :
    EncryptedBallot → Except BallotError (List Point × List Point)
  | [] => Except.ok ([], [])
  | ct :: rest =>
    match GetPoints ct with
    | none => Except.error BallotError.getPoints
    | some (k, c) =>
      match EncryptedBallot.GetElGPairs GetPoints rest with
      | Except.error e => Except.error e
      | Except.ok (ks, cs) => Except.ok (k :: ks, c :: cs)

/-- The inner loop of `EncryptedBallots.GetElGPairs`,
`for i := 0; i < len(x); i++ { X[i] = append(X[i], x[i]) }`, over the columns
and points left: `none` is the panic of `X[i]` past the end of `X`. -/
def appendColumns {Point : Type} :
    List (List Point) → List Point → Option (List (List Point))
  | cols, [] => some cols
  | [], _ :: _ => none
  | col :: cols, p :: ps =>
    (appendColumns cols ps).map (fun r => (col ++ [p]) :: r)

/-- The outer loop of `EncryptedBallots.GetElGPairs` over the ballots left,
with the current `X` and `Y`. -/
def getElGPairsLoop {Point : Type}
    (GetPoints : Ciphertext → Option (Point × Point)) :
    List EncryptedBallot → List (List Point) → List (List Point) →
      Option (Except BallotError (List (List Point) × List (List Point)))
  | [], X, Y => some (Except.ok (X, Y))
  | ballot :: rest, X, Y =>
    match EncryptedBallot.GetElGPairs GetPoints ballot with
    | Except.error e => some (Except.error e)
    | Except.ok (x, y) =>
      match appendColumns X x, appendColumns Y y with
      | some X2, some Y2 => getElGPairsLoop GetPoints rest X2 Y2
      | _, _ => none

/-- The method `EncryptedBallots.GetElGPairs`: `X` and `Y` start as
`len(b[0])` empty columns; `none` is a panic. -/
def EncryptedBallots.GetElGPairs {Point : Type}
    (GetPoints : Ciphertext → Option (Point × Point)) (b : EncryptedBallots) :
    Option (Except BallotError (List (List Point) × List (List Point))) :=
  match b with
  | [] => some (Except.error BallotError.noBallots)
  | first :: _ =>
    getElGPairsLoop GetPoints b (List.replicate first.length [])
      (List.replicate first.length [])

/-- The loop of `EncryptedBallot.InitFromElGPairs` over two lists of the same
length: the error and the slice as the loop leaves it, whose entries from the
failing index on are still the zero `Ciphertext`. -/
def fromPointsLoop {Point : Type} (FromPoints : Point → Point → Option Ciphertext) :
    List Point → List Point → Option BallotError × EncryptedBallot
  | k :: ks, c :: cs =>
    match FromPoints k c with
    | none =>
      (some BallotError.initCiphertext, List.replicate (ks.length + 1) ⟨[], []⟩)
    | some ct =>
      ((fromPointsLoop FromPoints ks cs).1,
        ct :: (fromPointsLoop FromPoints ks cs).2)
  | _, _ => (none, [])

/-- The method `EncryptedBallot.InitFromElGPairs`: the returned error and the
ballot as the call leaves it. -/
def EncryptedBallot.InitFromElGPairs {Point : Type}
    (FromPoints : Point → Point → Option Ciphertext) (b : EncryptedBallot)
    (ks cs : List Point) : Option BallotError × EncryptedBallot :=
  if ks.length ≠ cs.length then (some BallotError.lengthKsCs, b)
  else fromPointsLoop FromPoints ks cs

/-- The reads `X[j][i]` for `j` from 0 to `len(X)-1`: `none` is the panic of
an index past the end of `X[j]`. -/
def column {Point : Type} : List (List Point) → Nat → Option (List Point)
  | [], _ => some []
  | row :: rows, i =>
    match row.get? i with
    | none => none
    | some p => (column rows i).map (fun r => p :: r)

/-- The loop `for i := 0; i < k; i++` of `EncryptedBallots.InitFromElGPairs`
with `n` rounds left at index `i`: the returned error and the ballots as
the loop leaves them (those not reached are empty); `none` is a panic. -/
def initFromElGPairsLoop {Point : Type}
    (FromPoints : Point → Point → Option Ciphertext)
    (X Y : List (List Point)) :
    Nat → Nat → Option (Option BallotError × EncryptedBallots)
  | 0, _ => some (none, [])
  | n + 1, i =>
    match column X i, column Y i with
    | some x, some y =>
      match EncryptedBallot.InitFromElGPairs FromPoints [] x y with
      | (some e, _) => some (some e, List.replicate (n + 1) [])
      | (none, encryptedBallot) =>
        match initFromElGPairsLoop FromPoints X Y n (i + 1) with
        | none => none
        | some (e, rest) => some (e, encryptedBallot :: rest)
    | _, _ => none

/-- The method `EncryptedBallots.InitFromElGPairs`: the returned error and the
ballots as the call leaves them; `none` is a panic. -/
def EncryptedBallots.InitFromElGPairs {Point : Type}
    (FromPoints : Point → Point → Option Ciphertext) (b : EncryptedBallots)
    (X Y : List (List Point)) : Option (Option BallotError × EncryptedBallots) :=
  if X.length ≠ Y.length then some (some BallotError.lengthXY, b)
  else
    match X with
    | [] => some (some BallotError.emptyPairs, b)
    | X0 :: _ => initFromElGPairsLoop FromPoints X Y X0.length 0

/-- The K points of a ballot whose ciphertexts decode (empty otherwise). -/
def pointsK {Point : Type} (GetPoints : Ciphertext → Option (Point × Point))
    (b : EncryptedBallot) : List Point :=
  match EncryptedBallot.GetElGPairs GetPoints b with
  | Except.ok (ks, _) => ks
  | Except.error _ => []

/-- The C points of a ballot whose ciphertexts decode (empty otherwise). -/
def pointsC {Point : Type} (GetPoints : Ciphertext → Option (Point × Point))
    (b : EncryptedBallot) : List Point :=
  match EncryptedBallot.GetElGPairs GetPoints b with
  | Except.ok (_, cs) => cs
  | Except.error _ => []

/-- The `L` columns of a list of rows of `L` points each: column `c` holds
entry `c` of every row, in the order of the rows. -/
def columnsOf {Point : Type} (L : Nat) : List (List Point) → List (List Point)
  | [] => List.replicate L []
  | row :: rows => List.zipWith (fun p col => p :: col) row (columnsOf L rows)

/-! ## The DKG actor

The code of the Pedersen actor and of its handler is not among the sources at
hand, which hold the interface `dkg.Actor` and the tests of the package. The
definitions of this section are modelled from the spec (sections 3, 4.1, 4.3
and 6), with the names the interface and the tests use. -/

/-- Modelled from the spec: the code of `Actor.Encrypt` is not among the
sources at hand. Section 4.1: `encrypt(H, msg)` consumes up to 29 bytes of
`msg`, which `embed` maps to a point `M`, and returns the ciphertext and the
un-encrypted tail; section 3: `K = r·G` and `C = M + r·H` for the ephemeral
scalar `r`. The group of points, its scalars, the base point `G`, `embed` and
the scalar `r` that the call draws are parameters. -/
def Encrypt {F P : Type} [CommRing F] [AddCommGroup P] [Module F P]
    (G : P) (embed : List Byte → P) (H : P) (r : F) (message : List Byte) :
    P × P × List Byte :=
  (r • G, embed (message.take 29) + r • H, message.drop 29)

/-- A toy embedding of bytes into the integers, used to instantiate `embed`:
the bytes are the base-256 digits under a leading 1. -/
def toyEmbed : List Byte → Int
  | [] => 1
  | b :: bs => (b.val : Int) + 256 * toyEmbed bs

/-- The inverse of the toy embedding, reading at most `fuel` bytes. -/
def toyDataLoop : Nat → Int → List Byte
  | 0, _ => []
  | fuel + 1, n =>
    if n ≤ 1 then []
    else ⟨(n % 256).toNat, by omega⟩ :: toyDataLoop fuel (n / 256)

/-- The inverse of the toy embedding on chunks of at most 29 bytes. -/
def toyData (n : Int) : List Byte :=
  toyDataLoop 29 n

/-- Modelled from the spec: the handler state `StartRes` (section 3), the
distributed key `H` and the participant address list; a field that has not
been set is `none`, as in the zero value `state{}` of the tests. -/
structure state (Point Address : Type) where
  distKey : Option Point
  participants : Option (List Address)
deriving DecidableEq, Repr

/-- Modelled from the spec: Setup has completed on a node when its state holds
the distributed key and the participant list, which are written together once
certification succeeds (section 4.3, persistence point). -/
def state.Done {Point Address : Type} (s : state Point Address) : Bool :=
  s.distKey.isSome && s.participants.isSome

/-- The errors of the actor. -/
inductive DKGError where
  /-- The text "dkg has not been initialized" -/
  | notInitialized
deriving DecidableEq, Repr

/-- Modelled from the spec: the part of an actor that `GetPublicKey` reads,
the state of its handler (`actor.handler.startRes` in the tests). -/
structure Actor (Point Address : Type) where
  startRes : state Point Address
deriving DecidableEq, Repr

/-- Modelled from the spec: the code of `Actor.GetPublicKey` is not among the
sources at hand. Section 4.3: `GetPublicKey() -> H` fails `NotInitialized`
before Setup completes; the interface: "returns the collective public key.
Returns an error if the setup has not been done". The result is the key and
the error. -/
def Actor.GetPublicKey {Point Address : Type} (a : Actor Point Address) :
    Option Point × Option DKGError :=
  if a.startRes.Done then (a.startRes.distKey, none)
  else (none, some DKGError.notInitialized)

/-- Modelled from the spec: a private share, the index `i` and the scalar
`x_i` (section 3). -/
structure PriShare (Scalar : Type) where
  I : Int
  V : Scalar
deriving DecidableEq, Repr

/-- Modelled from the spec: the handler data persisted per election and per
node (sections 3 and 6): PrivKey, PubKey, PrivShare and StartRes. A node that
has not run Setup has no private share. -/
structure HandlerData (Scalar Point Address : Type) where
  StartRes : state Point Address
  PrivShare : Option (PriShare Scalar)
  PubKey : Point
  PrivKey : Scalar
deriving DecidableEq, Repr

/-- Modelled from the spec: the code of `NewHandlerData` is not among the
sources at hand; a fresh handler data holds the long-term key pair of the node,
which is given here, an empty state and no private share. -/
def NewHandlerData {Scalar Point Address : Type} (privKey : Scalar)
    (pubKey : Point) : HandlerData Scalar Point Address :=
  { StartRes := ⟨none, none⟩, PrivShare := none, PubKey := pubKey,
    PrivKey := privKey }

/-- Modelled from the spec: the encoded state, "StartRes (distKey,
participants list)" of section 6, each part in its encoded form. -/
structure EncodedState where
  distKey : Option (List Byte)
  participants : Option (List (List Byte))
deriving DecidableEq, Repr

/-- Modelled from the spec: the persisted value of section 6, "encoded
{PrivKey, PubKey, PrivShare (i, x_i), StartRes (distKey, participants list)}".
The framing of the fields into bytes is declared opaque by the spec (section
1) and is not modelled. -/
structure EncodedHandlerData where
  StartRes : EncodedState
  PrivShare : Option (Int × List Byte)
  PubKey : List Byte
  PrivKey : List Byte
deriving DecidableEq, Repr

/-- The encodings of scalars, points and addresses, which the spec leaves to
the group and to the transport: each `marshal` gives bytes and each `unmarshal`
reads them back or fails. -/
structure Codec (Scalar Point Address : Type) where
  marshalScalar : Scalar → List Byte
  unmarshalScalar : List Byte → Option Scalar
  marshalPoint : Point → List Byte
  unmarshalPoint : List Byte → Option Point
  marshalAddress : Address → List Byte
  unmarshalAddress : List Byte → Option Address

/-- Decoding a list of encoded values one after the other; the first failure
fails the whole. -/
def unmarshalAll {α : Type} (unmarshal : List Byte → Option α) :
    List (List Byte) → Option (List α)
  | [] => some []
  | buf :: rest =>
    match unmarshal buf with
    | none => none
    | some a => (unmarshalAll unmarshal rest).map (fun r => a :: r)

/-- Modelled from the spec: `state.MarshalJSON`, each part that is set in its
encoded form. -/
def state.MarshalJSON {Scalar Point Address : Type}
    (codec : Codec Scalar Point Address) (s : state Point Address) :
    EncodedState :=
  { distKey := s.distKey.map codec.marshalPoint,
    participants := s.participants.map (List.map codec.marshalAddress) }

/-- Modelled from the spec: `state.UnmarshalJSON`, `none` when a part does not
decode. -/
def state.UnmarshalJSON {Scalar Point Address : Type}
    (codec : Codec Scalar Point Address) (data : EncodedState) :
    Option (state Point Address) :=
  match data.distKey with
  | none =>
    match data.participants with
    | none => some ⟨none, none⟩
    | some bufs =>
      (unmarshalAll codec.unmarshalAddress bufs).map (fun ps => ⟨none, some ps⟩)
  | some keyBuf =>
    match codec.unmarshalPoint keyBuf with
    | none => none
    | some key =>
      match data.participants with
      | none => some ⟨some key, none⟩
      | some bufs =>
        (unmarshalAll codec.unmarshalAddress bufs).map
          (fun ps => ⟨some key, some ps⟩)

/-- Modelled from the spec: `HandlerData.MarshalJSON` (section 4.3: "persists
{PrivKey, PubKey, PrivShare, StartRes}"). -/
def HandlerData.MarshalJSON {Scalar Point Address : Type}
    (codec : Codec Scalar Point Address)
    (hd : HandlerData Scalar Point Address) : EncodedHandlerData :=
  { StartRes := state.MarshalJSON codec hd.StartRes,
    PrivShare := hd.PrivShare.map (fun sh => (sh.I, codec.marshalScalar sh.V)),
    PubKey := codec.marshalPoint hd.PubKey,
    PrivKey := codec.marshalScalar hd.PrivKey }

/-- Modelled from the spec: `HandlerData.UnmarshalJSON`, `none` when a field
does not decode. -/
def HandlerData.UnmarshalJSON {Scalar Point Address : Type}
    (codec : Codec Scalar Point Address) (data : EncodedHandlerData) :
    Option (HandlerData Scalar Point Address) :=
  match state.UnmarshalJSON codec data.StartRes,
      codec.unmarshalPoint data.PubKey,
      codec.unmarshalScalar data.PrivKey with
  | some startRes, some pubKey, some privKey =>
    match data.PrivShare with
    | none => some ⟨startRes, none, pubKey, privKey⟩
    | some (i, vBuf) =>
      match codec.unmarshalScalar vBuf with
      | none => none
      | some v => some ⟨startRes, some ⟨i, v⟩, pubKey, privKey⟩
  | _, _, _ => none

/-! ## The admin form -/

/-- The value `ch - '0'` of a decimal digit, as the loops of `strconv` compute
it (`ch -= '0'; if ch > 9 { syntax error }`); `none` for any other
character. -/
def digitVal (c : Char) : Option Nat :=
  if 48 ≤ c.toNat ∧ c.toNat ≤ 57 then some (c.toNat - 48) else none

/-- The digit loop of `strconv`: `n = n*10 + int(ch)` over the characters,
`none` at the first character that is no digit. -/
def parseDigits : List Char → Nat → Option Nat
  | [], n => some n
  | ch :: rest, n =>
    match digitVal ch with
    | none => none
    | some d => parseDigits rest (n * 10 + d)

/-- Go's `strconv.Atoi` (standard library) for the 64-bit `int`: an optional
sign `+` or `-`, then at least one decimal digit and nothing else, the value
lying in the range of `int`; `none` stands for a returned error (syntax or
range), whose text is not modelled. -/
def Atoi (s : String) : Option Int :=
  match s.data with
  | [] => none
  | c :: cs =>
    let digits := if c = '-' ∨ c = '+' then cs else c :: cs
    if digits = [] then none
    else
      match parseDigits digits 0 with
      | none => none
      | some n =>
        if c = '-' then
          if n ≤ 2 ^ 63 then some (-(n : Int)) else none
        else
          if n < 2 ^ 63 then some (n : Int) else none

/-- The errors built by `xerrors.Errorf` in `admin.go`, one per call site. -/
inductive AdminError where
  /-- The text "Failed to convert SCIPER to an INT: ..." -/
  | convertSciper
  /-- The text "Error while retrieving the index of the element." -/
  | retrieveIndex
deriving DecidableEq, Repr

/-- The Go struct `AdminForm`. -/
structure AdminForm where
  FormID : String
  AdminList : List Int
deriving DecidableEq, Repr

/-- The method `AdminForm.AddAdmin`: the returned error and the form as the
call leaves it. -/
def AdminForm.AddAdmin (af : AdminForm) (userID : String) :
    Option AdminError × AdminForm :=
  match Atoi userID with
  | none => (some AdminError.convertSciper, af)
  | some sciperInt =>
    (none, { af with AdminList := af.AdminList ++ [sciperInt] })

/-- The loop of `IsAdmin`,
`for i := 0; i < len(AdminList); i++ { if AdminList[i] == sciperInt { return i } }`
followed by `return -1`, over the entries from index `i` on. -/
def isAdminLoop (sciperInt : Int) : List Int → Nat → Int
  | [], _ => -1
  | a :: rest, i => if a = sciperInt then (i : Int) else isAdminLoop sciperInt rest (i + 1)

/-- The method `AdminForm.IsAdmin`. -/
def AdminForm.IsAdmin (af : AdminForm) (userID : String) : Int :=
  match Atoi userID with
  | none => -1
  | some sciperInt => isAdminLoop sciperInt af.AdminList 0

/-- The method `AdminForm.RemoveAdmin`: the returned error and the form as the
call leaves it; `none` is the panic of the slice expressions
`AdminList[:index]` and `AdminList[index+1:]` when `index+1` exceeds the
length. -/
def AdminForm.RemoveAdmin (af : AdminForm) (userID : String) :
    Option (Option AdminError × AdminForm) :=
  match Atoi userID with
  | none => some (some AdminError.convertSciper, af)
  | some _ =>
    let index := af.IsAdmin userID
    if index < 0 then some (some AdminError.retrieveIndex, af)
    else if index.toNat + 1 ≤ af.AdminList.length then
      some (none, { af with
        AdminList := af.AdminList.take index.toNat
          ++ af.AdminList.drop (index.toNat + 1) })
    else none

/-- A user ID that is the text of an integer: an optional sign, then one or
more decimal digits and nothing else. -/
def isIntegerText (userID : String) : Bool :=
  match userID.data with
  | [] => false
  | c :: cs =>
    if c = '-' ∨ c = '+' then !cs.isEmpty && cs.all Char.isDigit
    else (c :: cs).all Char.isDigit

/-! ## Election status -/

/-- The Go type `status` (`uint16`), as the number it holds. -/
abbrev status := Nat

/-- The constant `Initial`. -/
def Initial : status := 0
/-- The constant `Open`. -/
def Open : status := 1
/-- The constant `Closed`. -/
def Closed : status := 2
/-- The constant `ShuffledBallots`. -/
def ShuffledBallots : status := 3
/-- The constant `ResultAvailable` (4 is left out by the source). -/
def ResultAvailable : status := 5
/-- The constant `Canceled`. -/
def Canceled : status := 6

/-- The six statuses an election record can hold. -/
def statuses : List status :=
  [Initial, Open, Closed, ShuffledBallots, ResultAvailable, Canceled]

/-- Modelled from the spec: the events of the lifecycle table of the election
state machine (section 4.2), the creation of the election apart, which has no
source status. The code that applies them is not among the sources at hand. -/
inductive Event where
  | Open
  | CastVote
  | Close
  | Shuffle
  | PostPubshares
  | CombineShares
  | Cancel
deriving DecidableEq, Repr

/-- Modelled from the spec: the lifecycle table of section 4.2, row by row:
the status an event leads to from a given status, `none` when the table has no
row for the pair. The guards of the table only refuse events, so they add no
transition; `Cancel` applies from any of the six statuses. -/
def step (s : status) (e : Event) : Option status :=
  match e with
  | Event.Open => if s = Initial then some Open else none
  | Event.CastVote => if s = Open then some Open else none
  | Event.Close => if s = Open then some Closed else none
  | Event.Shuffle =>
    if s = Closed ∨ s = ShuffledBallots then some ShuffledBallots else none
  | Event.PostPubshares =>
    if s = ShuffledBallots then some ShuffledBallots else none
  | Event.CombineShares =>
    if s = ShuffledBallots then some ResultAvailable else none
  | Event.Cancel => if s ∈ statuses then some Canceled else none

/-- Modelled from the spec: a sequence of valid events applied in order;
`none` when one of them has no row in the table. -/
def run : status → List Event → Option status
  | s, [] => some s
  | s, e :: es =>
    match step s e with
    | none => none
    | some t => run t es

/-! ## Configuration -/

/-- The Go type `ID` (`type ID string`). -/
abbrev ID := String

/-- The value a Go `int` holds after an addition: the sum wrapped into the
64-bit two's complement range. -/
def wrapInt (z : Int) : Int :=
  (z + 2 ^ 63) % 2 ^ 64 - 2 ^ 63

/-- The Go struct `Configuration`. The declaration of `Subject` is not among
the sources at hand, so the type of the subjects is a parameter. -/
structure Configuration (Subject : Type) where
  MainTitle : String
  Scaffold : List Subject

/-- The method `Configuration.MaxBallotSize`; the method
`Subject.MaxEncodedSize` it calls is a parameter. -/
def Configuration.MaxBallotSize {Subject : Type}
    (MaxEncodedSize : Subject → Int) (c : Configuration Subject) : Int :=
  c.Scaffold.foldl (fun size subject => wrapInt (size + MaxEncodedSize subject)) 0

/-- The Go map `map[ID]bool` of `IsValid`, which "serves as a set": the list
of its keys. -/
abbrev IDSet := List ID

/-- The loop of `Configuration.IsValid` over the subjects left, from the
current content of `uniqueIDs`. The method `Subject.IsValid` it calls is a
parameter: it returns its verdict and the map as it leaves it. -/
def isValidLoop {Subject : Type} (subjectIsValid : Subject → IDSet → Bool × IDSet) :
    List Subject → IDSet → Bool
  | [], _ => true
  | subject :: rest, uniqueIDs =>
    if !(subjectIsValid subject uniqueIDs).1 then false
    else isValidLoop subjectIsValid rest (subjectIsValid subject uniqueIDs).2

/-- The method `Configuration.IsValid`: the loop started on the empty map. -/
def Configuration.IsValid {Subject : Type}
    (subjectIsValid : Subject → IDSet → Bool × IDSet)
    (c : Configuration Subject) : Bool :=
  isValidLoop subjectIsValid c.Scaffold []

/-- The content of `uniqueIDs` after the subjects of a list have been checked
one after the other, as long as each passes. -/
def uniqueIDsAfter {Subject : Type}
    (subjectIsValid : Subject → IDSet → Bool × IDSet) :
    List Subject → IDSet → IDSet
  | [], uniqueIDs => uniqueIDs
  | subject :: rest, uniqueIDs =>
    uniqueIDsAfter subjectIsValid rest (subjectIsValid subject uniqueIDs).2

/-- Modelled from the spec: `Subject` is not among the sources at hand. The
model keeps what the configuration reads from a subject: the IDs of its
questions and its maximum encoded size. -/
structure SubjectModel where
  QuestionIDs : List ID
  MaxSize : Int
deriving DecidableEq, Repr

/-- Modelled from the spec: ("every question ID unique across the scaffold")
the check of question IDs against the shared set: an ID already in the set
fails the check, a new one is added to the set. -/
def checkQuestionIDs : List ID → IDSet → Bool × IDSet
  | [], uniqueIDs => (true, uniqueIDs)
  | q :: qs, uniqueIDs =>
    if q ∈ uniqueIDs then (false, uniqueIDs)
    else checkQuestionIDs qs (q :: uniqueIDs)

/-- Modelled from the spec: `Subject.IsValid` is not among the sources at
hand; the subject passes when each of its question IDs is new to the shared
set, which receives them. -/
def SubjectModel.IsValid (s : SubjectModel) (uniqueIDs : IDSet) : Bool × IDSet :=
  checkQuestionIDs s.QuestionIDs uniqueIDs

/-! ## Helper lemmas: copies and the range loop -/

theorem ciphertext_copy_eq (ct : Ciphertext) : ct.Copy = ct := by
  cases ct
  simp [Ciphertext.Copy]

theorem encryptedBallot_copy_eq (b : EncryptedBallot) :
    EncryptedBallot.Copy b = b := by
  induction b with
  | nil => rfl
  | cons c cs ih =>
    simp only [EncryptedBallot.Copy, List.map_cons] at ih ⊢
    rw [ih, ciphertext_copy_eq]

theorem rangeUserIDs_shift (u : String) (us : List String) (i : Nat) :
    rangeUserIDs u us i = (rangeUserIDs u us 0).map (fun k => k + i) := by
  induction us generalizing i with
  | nil => rfl
  | cons v vs ih =>
    by_cases h : v = u
    · simp [rangeUserIDs, h]
    · simp only [rangeUserIDs, h, if_false]
      rw [ih (i + 1), ih (0 + 1)]
      cases rangeUserIDs u vs 0 with
      | none => rfl
      | some k => simp [Nat.add_comm, Nat.add_left_comm]

theorem rangeUserIDs_none (u : String) (us : List String) (i : Nat) :
    rangeUserIDs u us i = none ↔ u ∉ us := by
  induction us generalizing i with
  | nil => simp [rangeUserIDs]
  | cons v vs ih =>
    by_cases h : v = u
    · simp [rangeUserIDs, h]
    · have h2 : ¬ u = v := fun e => h e.symm
      simp [rangeUserIDs, h, h2, ih]

/-- What the loop finds: the first position holding the user. -/
theorem rangeUserIDs_some (u : String) (us : List String) (k : Nat)
    (h : rangeUserIDs u us 0 = some k) :
    k < us.length ∧ us.get? k = some u ∧ ∀ j, j < k → us.get? j ≠ some u := by
  induction us generalizing k with
  | nil => simp [rangeUserIDs] at h
  | cons v vs ih =>
    by_cases hv : v = u
    · simp only [rangeUserIDs, hv, if_true, Option.some.injEq] at h
      subst h
      simp [hv]
    · simp only [rangeUserIDs, hv, if_false] at h
      rw [rangeUserIDs_shift] at h
      cases hr : rangeUserIDs u vs 0 with
      | none => simp [hr] at h
      | some m =>
        simp only [hr, Option.map_some', Option.some.injEq] at h
        subst h
        obtain ⟨h1, h2, h3⟩ := ih m hr
        refine ⟨by simpa using h1, by simpa using h2, ?_⟩
        intro j hj
        cases j with
        | zero => simpa using hv
        | succ j =>
          have := h3 j (by omega)
          simpa using this

theorem rangeUserIDs_append_new (u : String) (us : List String) (h : u ∉ us) :
    rangeUserIDs u (us ++ [u]) 0 = some us.length := by
  induction us with
  | nil => simp [rangeUserIDs]
  | cons v vs ih =>
    have hv : ¬ v = u := fun e => h (by simp [e])
    have hvs : u ∉ vs := fun e => h (by simp [e])
    have e : rangeUserIDs u (v :: vs ++ [u]) 0
        = rangeUserIDs u (vs ++ [u]) (0 + 1) := by
      simp [rangeUserIDs, hv]
    rw [e, rangeUserIDs_shift, ih hvs]
    simp

/-! ## Helper lemmas: the admin list -/

theorem isAdminLoop_eq_neg_one (n : Int) (l : List Int) (i : Nat) :
    isAdminLoop n l i = -1 ↔ n ∉ l := by
  induction l generalizing i with
  | nil => simp [isAdminLoop]
  | cons a rest ih =>
    by_cases h : a = n
    · have hi : ¬ ((i : Int) = -1) := by omega
      simp [isAdminLoop, h, hi]
    · have h2 : ¬ n = a := fun e => h e.symm
      simp [isAdminLoop, h, h2, ih]

/-- When the integer is listed, the loop returns its first index. -/
theorem isAdminLoop_of_mem (n : Int) (l : List Int) (i : Nat) (h : n ∈ l) :
    ∃ k : Nat, isAdminLoop n l i = ((i + k : Nat) : Int) ∧
      l.get? k = some n ∧ ∀ j, j < k → l.get? j ≠ some n := by
  induction l generalizing i with
  | nil => simp at h
  | cons a rest ih =>
    by_cases ha : a = n
    · exact ⟨0, by simp [isAdminLoop, ha], by simp [ha], by simp⟩
    · have hrest : n ∈ rest := by
        rcases List.mem_cons.1 h with e | e
        · exact absurd e.symm ha
        · exact e
      obtain ⟨k, hk, hget, hfirst⟩ := ih (i + 1) hrest
      refine ⟨k + 1, ?_, by simpa using hget, ?_⟩
      · simp only [isAdminLoop, ha, if_false, hk]
        congr 1
        omega
      · intro j hj
        cases j with
        | zero => simpa using ha
        | succ j =>
          have := hfirst j (by omega)
          simpa using this

theorem isAdminLoop_range (n : Int) (l : List Int) (i : Nat) :
    isAdminLoop n l i = -1 ∨ 0 ≤ isAdminLoop n l i := by
  by_cases h : n ∈ l
  · obtain ⟨k, hk, _, _⟩ := isAdminLoop_of_mem n l i h
    right
    rw [hk]
    exact Int.ofNat_nonneg _
  · left
    exact (isAdminLoop_eq_neg_one n l i).2 h

theorem digitVal_isDigit (c : Char) (d : Nat) (h : digitVal c = some d) :
    c.isDigit = true := by
  unfold digitVal at h
  split at h
  · rename_i hc
    have h1 : (48 : UInt32) ≤ c.val := by
      rw [UInt32.le_def]
      exact Fin.le_def.2 hc.1
    have h2 : c.val ≤ (57 : UInt32) := by
      rw [UInt32.le_def]
      exact Fin.le_def.2 hc.2
    simp [Char.isDigit, h1, h2]
  · exact absurd h (by simp)

theorem parseDigits_all_isDigit (ds : List Char) (acc n : Nat)
    (h : parseDigits ds acc = some n) : ds.all Char.isDigit = true := by
  induction ds generalizing acc with
  | nil => rfl
  | cons c cs ih =>
    unfold parseDigits at h
    cases hd : digitVal c with
    | none => simp [hd] at h
    | some d =>
      simp only [hd] at h
      simp [digitVal_isDigit c d hd, ih _ h]

theorem isIntegerText_of_Atoi (u : String) (n : Int) (h : Atoi u = some n) :
    isIntegerText u = true := by
  unfold Atoi at h
  unfold isIntegerText
  cases hdata : u.data with
  | nil => simp [hdata] at h
  | cons c cs =>
    simp only [hdata] at h ⊢
    by_cases hs : c = '-' ∨ c = '+'
    · simp only [hs, if_true] at h ⊢
      by_cases hcs : cs = []
      · simp [hcs] at h
      · simp only [hcs, if_false] at h
        cases hp : parseDigits cs 0 with
        | none => simp [hp] at h
        | some m =>
          have := parseDigits_all_isDigit cs 0 m hp
          simp [this, hcs]
    · simp only [hs, if_false] at h ⊢
      simp only [List.cons_ne_nil, if_false] at h
      cases hp : parseDigits (c :: cs) 0 with
      | none => simp [hp] at h
      | some m => exact parseDigits_all_isDigit (c :: cs) 0 m hp

/-! ## Helper lemmas: `Atoi` reads back the decimal form of an integer -/

theorem digitVal_digitChar (k : Nat) (h : k < 10) :
    digitVal (Nat.digitChar k) = some k := by
  interval_cases k <;> decide

theorem parseDigits_toDigitsCore (fuel n : Nat) (ds : List Char)
    (h : n < fuel) :
    parseDigits (Nat.toDigitsCore 10 fuel n ds) 0 = parseDigits ds n := by
  induction fuel generalizing n ds with
  | zero => omega
  | succ fuel ih =>
    have hd : digitVal (Nat.digitChar (n % 10)) = some (n % 10) :=
      digitVal_digitChar (n % 10) (Nat.mod_lt n (by decide))
    unfold Nat.toDigitsCore
    by_cases h0 : n / 10 = 0
    · have hn : n % 10 = n := Nat.mod_eq_of_lt (by omega)
      simp only [h0, if_true, parseDigits, hd]
      congr 1
      omega
    · simp only [h0, if_false]
      rw [ih (n / 10) _ (by omega)]
      simp only [parseDigits, hd]
      congr 1
      omega

theorem toDigitsCore_ne_nil (fuel n : Nat) (ds : List Char) (h : ds ≠ []) :
    Nat.toDigitsCore 10 fuel n ds ≠ [] := by
  induction fuel generalizing n ds with
  | zero => simpa [Nat.toDigitsCore] using h
  | succ fuel ih =>
    unfold Nat.toDigitsCore
    by_cases h0 : n / 10 = 0
    · simp [h0]
    · simp only [h0, if_false]
      exact ih _ _ (by simp)

theorem parseDigits_repr (n : Nat) :
    (Nat.repr n).data ≠ [] ∧ parseDigits (Nat.repr n).data 0 = some n := by
  constructor
  · show Nat.toDigitsCore 10 (n + 1) n [] ≠ []
    unfold Nat.toDigitsCore
    by_cases h0 : n / 10 = 0
    · simp [h0]
    · simp only [h0, if_false]
      exact toDigitsCore_ne_nil _ _ _ (by simp)
  · show parseDigits (Nat.toDigitsCore 10 (n + 1) n []) 0 = some n
    rw [parseDigits_toDigitsCore (n + 1) n [] (by omega)]
    rfl

theorem Atoi_toString (z : Int) (hlo : -2 ^ 63 ≤ z) (hhi : z < 2 ^ 63) :
    Atoi (toString z) = some z := by
  cases z with
  | ofNat m =>
    obtain ⟨hne, hp⟩ := parseDigits_repr m
    have hdata : (toString (Int.ofNat m)).data = (Nat.repr m).data := rfl
    cases hl : (Nat.repr m).data with
    | nil => exact absurd hl hne
    | cons c cs =>
      rw [hl] at hp
      have hc : digitVal c ≠ none := by
        intro hc
        simp [parseDigits, hc] at hp
      have hminus : c ≠ '-' := by
        intro e
        subst e
        exact hc (by decide)
      have hplus : c ≠ '+' := by
        intro e
        subst e
        exact hc (by decide)
      have hm : m < 2 ^ 63 := by
        have : ((m : Nat) : Int) < 2 ^ 63 := hhi
        exact_mod_cast this
      unfold Atoi
      simp only [hdata, hl, hminus, hplus, or_self, if_false, List.cons_ne_nil,
        hp, hm, if_true]
      rfl
  | negSucc m =>
    obtain ⟨hne, hp⟩ := parseDigits_repr (m + 1)
    have hdata : (toString (Int.negSucc m)).data
        = '-' :: (Nat.repr (m + 1)).data := rfl
    have hm : m + 1 ≤ 2 ^ 63 := by
      have : -2 ^ 63 ≤ Int.negSucc m := hlo
      rw [Int.negSucc_eq] at this
      omega
    unfold Atoi
    simp only [hdata, true_or, if_true, hne, if_false, hp, hm]
    rw [Int.negSucc_eq]
    simp

/-- The decimal form of an integer >= 1 is read back by the digit loop. -/
theorem parseDigits_toString_pos (z : Int) (h : 1 ≤ z) :
    parseDigits (toString z).data 0 = some z.toNat := by
  cases z with
  | ofNat m => exact (parseDigits_repr m).2
  | negSucc m =>
    have : Int.negSucc m < 0 := Int.negSucc_lt_zero m
    omega

/-! ## Helper lemmas: statuses, sizes and the validity loop -/

theorem step_le (s : Nat) (e : Event) (t : Nat) (h : step s e = some t) :
    s ≤ t := by
  cases e <;> simp only [step] at h <;> split at h <;> cases h <;>
    rename_i hs <;>
    (try simp only [statuses, List.mem_cons, List.mem_singleton,
      List.not_mem_nil, or_false] at hs) <;>
    obtain rfl | rfl | rfl | rfl | rfl | rfl := hs <;>
    decide

theorem step_canceled (e : Event) (t : Nat) (h : step Canceled e = some t) :
    t = Canceled := by
  cases e <;> simp only [step] at h <;> split at h <;> cases h <;>
    rename_i hs <;>
    first
    | rfl
    | exact absurd hs (by decide)

theorem run_le (s : Nat) (es : List Event) (t : Nat)
    (h : run s es = some t) : s ≤ t := by
  induction es generalizing s with
  | nil =>
    simp only [run, Option.some.injEq] at h
    exact Nat.le_of_eq h
  | cons e es ih =>
    simp only [run] at h
    cases hs : step s e with
    | none => simp [hs] at h
    | some m =>
      simp only [hs] at h
      exact Nat.le_trans (step_le s e m hs) (ih m h)

theorem run_canceled (es : List Event) (t : Nat)
    (h : run Canceled es = some t) : t = Canceled := by
  induction es with
  | nil =>
    simp only [run, Option.some.injEq] at h
    exact h.symm
  | cons e es ih =>
    simp only [run] at h
    cases hs : step Canceled e with
    | none => simp [hs] at h
    | some m =>
      simp only [hs] at h
      rw [step_canceled e m hs] at h
      exact ih h

theorem wrapInt_add_left (a b : Int) : wrapInt (wrapInt a + b) = wrapInt (a + b) := by
  unfold wrapInt
  omega

theorem wrapInt_add_right (a b : Int) : wrapInt (a + wrapInt b) = wrapInt (a + b) := by
  unfold wrapInt
  omega

theorem wrapInt_of_range (a : Int) (hlo : -2 ^ 63 ≤ a) (hhi : a < 2 ^ 63) :
    wrapInt a = a := by
  unfold wrapInt
  omega

theorem foldl_wrapInt {Subject : Type} (f : Subject → Int) (l : List Subject)
    (init : Int) :
    l.foldl (fun size subject => wrapInt (size + f subject)) (wrapInt init)
      = wrapInt (init + (l.map f).sum) := by
  induction l generalizing init with
  | nil => simp
  | cons a rest ih =>
    simp only [List.foldl_cons, List.map_cons, List.sum_cons]
    rw [wrapInt_add_left, ih (init + f a), Int.add_assoc]

theorem maxBallotSize_eq {Subject : Type} (f : Subject → Int)
    (c : Configuration Subject) :
    c.MaxBallotSize f = wrapInt ((c.Scaffold.map f).sum) := by
  have h0 : (0 : Int) = wrapInt 0 := by decide
  unfold Configuration.MaxBallotSize
  rw [h0, foldl_wrapInt]
  simp

theorem isValidLoop_cons {Subject : Type}
    (check : Subject → IDSet → Bool × IDSet) (s : Subject) (rest : List Subject)
    (seen : IDSet) :
    isValidLoop check (s :: rest) seen
      = ((check s seen).1 && isValidLoop check rest (check s seen).2) := by
  cases h : (check s seen).1 <;> simp [isValidLoop, h]

theorem isValidLoop_append {Subject : Type}
    (check : Subject → IDSet → Bool × IDSet) (pre rest : List Subject)
    (seen : IDSet) :
    isValidLoop check (pre ++ rest) seen
      = (isValidLoop check pre seen &&
          isValidLoop check rest (uniqueIDsAfter check pre seen)) := by
  induction pre generalizing seen with
  | nil => simp [isValidLoop, uniqueIDsAfter]
  | cons s pre ih =>
    simp only [List.cons_append, isValidLoop_cons, uniqueIDsAfter, ih,
      Bool.and_assoc]

/-- The loop accepts only scaffolds whose question IDs are pairwise distinct
and new to the set it starts from, when each subject's check does so for the
subject's own IDs and adds them to the set. -/
theorem isValidLoop_nodup {Subject : Type} (questionIDs : Subject → List ID)
    (check : Subject → IDSet → Bool × IDSet)
    (hcheck : ∀ s seen, (check s seen).1 = true →
      (questionIDs s).Nodup ∧ ∀ q ∈ questionIDs s, q ∉ seen)
    (hgrow : ∀ s seen, (check s seen).1 = true →
      ∀ q, q ∈ seen ∨ q ∈ questionIDs s → q ∈ (check s seen).2)
    (l : List Subject) (seen : IDSet) (h : isValidLoop check l seen = true) :
    (l.flatMap questionIDs).Nodup ∧ ∀ q ∈ l.flatMap questionIDs, q ∉ seen := by
  induction l generalizing seen with
  | nil => simp
  | cons s rest ih =>
    rw [isValidLoop_cons, Bool.and_eq_true] at h
    obtain ⟨hs, hrest⟩ := h
    obtain ⟨hnodup, hnew⟩ := hcheck s seen hs
    obtain ⟨ihnodup, ihnew⟩ := ih (check s seen).2 hrest
    have hg := hgrow s seen hs
    simp only [List.flatMap_cons]
    constructor
    · rw [List.nodup_append]
      refine ⟨hnodup, ihnodup, ?_⟩
      intro q hq1 hq2
      exact ihnew q hq2 (hg q (Or.inr hq1))
    · intro q hq
      rcases List.mem_append.1 hq with h1 | h2
      · exact hnew q h1
      · intro hseen
        exact ihnew q h2 (hg q (Or.inl hseen))

theorem checkQuestionIDs_sound (qs : List ID) (seen : IDSet)
    (h : (checkQuestionIDs qs seen).1 = true) :
    qs.Nodup ∧ (∀ q ∈ qs, q ∉ seen) ∧
      ∀ q, q ∈ seen ∨ q ∈ qs → q ∈ (checkQuestionIDs qs seen).2 := by
  induction qs generalizing seen with
  | nil => simp [checkQuestionIDs]
  | cons a rest ih =>
    by_cases ha : a ∈ seen
    · simp [checkQuestionIDs, ha] at h
    · simp only [checkQuestionIDs, ha, if_false] at h ⊢
      obtain ⟨h1, h2, h3⟩ := ih (a :: seen) h
      refine ⟨?_, ?_, ?_⟩
      · rw [List.nodup_cons]
        exact ⟨fun hmem => h2 a hmem (by simp), h1⟩
      · intro q hq
        rcases List.mem_cons.1 hq with e | e
        · rw [e]
          exact ha
        · intro hs
          exact h2 q e (by simp [hs])
      · intro q hq
        apply h3
        rcases hq with hq | hq
        · exact Or.inl (by simp [hq])
        · rcases List.mem_cons.1 hq with e | e
          · exact Or.inl (by simp [e])
          · exact Or.inr e

/-! ## Helper lemmas: reading and deleting on the board -/

theorem getBallotFromUser_cons (w : String) (us : List String)
    (b : EncryptedBallot) (bs : EncryptedBallots) (v : String) :
    PublicBulletinBoard.GetBallotFromUser ⟨w :: us, b :: bs⟩ v
      = if w = v then some (b.Copy, true)
        else PublicBulletinBoard.GetBallotFromUser ⟨us, bs⟩ v := by
  by_cases h : w = v
  · simp [PublicBulletinBoard.GetBallotFromUser, rangeUserIDs, h]
  · simp only [PublicBulletinBoard.GetBallotFromUser, rangeUserIDs, h, if_false]
    rw [rangeUserIDs_shift]
    cases rangeUserIDs v us 0 with
    | none => rfl
    | some k => simp

theorem deleteUser_cons (w : String) (us : List String)
    (b : EncryptedBallot) (bs : EncryptedBallots) (u : String) :
    PublicBulletinBoard.DeleteUser ⟨w :: us, b :: bs⟩ u
      = if w = u then some (true, ⟨us, bs⟩)
        else (PublicBulletinBoard.DeleteUser ⟨us, bs⟩ u).map
          (fun r => (r.1, ⟨w :: r.2.UserIDs, b :: r.2.Ballots⟩)) := by
  by_cases h : w = u
  · simp [PublicBulletinBoard.DeleteUser, rangeUserIDs, h]
  · simp only [PublicBulletinBoard.DeleteUser, rangeUserIDs, h, if_false]
    rw [rangeUserIDs_shift]
    cases rangeUserIDs u us 0 with
    | none => rfl
    | some k =>
      by_cases hk : k + 1 ≤ bs.length
      · simp [hk]
      · simp [hk]

theorem getBallotFromUser_not_mem (p : PublicBulletinBoard) (u : String)
    (h : u ∉ p.UserIDs) : p.GetBallotFromUser u = some ([], false) := by
  simp [PublicBulletinBoard.GetBallotFromUser,
    (rangeUserIDs_none u p.UserIDs 0).2 h]

theorem deleteUser_aux (us : List String) (bs : EncryptedBallots) (u : String)
    (hlen : us.length = bs.length) (hnd : us.Nodup) :
    ∃ r q, PublicBulletinBoard.DeleteUser ⟨us, bs⟩ u = some (r, q) ∧
      (r = true ↔ u ∈ us) ∧
      q.UserIDs = us.filter (fun v => decide (v ≠ u)) ∧
      (r = true → q.UserIDs.length + 1 = us.length ∧
        q.Ballots.length + 1 = bs.length) ∧
      (∀ v, v ≠ u → q.GetBallotFromUser v
        = PublicBulletinBoard.GetBallotFromUser ⟨us, bs⟩ v) ∧
      (r = false → q = ⟨us, bs⟩) := by
  induction us generalizing bs with
  | nil =>
    exact ⟨false, ⟨[], bs⟩,
      by simp [PublicBulletinBoard.DeleteUser, rangeUserIDs],
      by simp, by simp, by simp, fun _ _ => rfl, fun _ => rfl⟩
  | cons w us ih =>
    cases bs with
    | nil => simp at hlen
    | cons b bs =>
      have hlen2 : us.length = bs.length := by simpa using hlen
      obtain ⟨hw, hnd2⟩ := List.nodup_cons.1 hnd
      rw [deleteUser_cons]
      by_cases h : w = u
      · subst h
        refine ⟨true, ⟨us, bs⟩, by simp, by simp, ?_, by simp [hlen2], ?_, by simp⟩
        · simp only [ne_eq, decide_not, List.filter_cons, decide_True,
            Bool.not_true, Bool.false_eq_true, if_false]
          symm
          rw [List.filter_eq_self]
          intro a ha
          have : a ≠ w := fun e => hw (e ▸ ha)
          simp [this]
        · intro v hv
          rw [getBallotFromUser_cons]
          simp [Ne.symm hv]
      · obtain ⟨r, q, hq, hr, hfilter, hlens, hget, hfalse⟩ := ih bs hlen2 hnd2
        refine ⟨r, ⟨w :: q.UserIDs, b :: q.Ballots⟩, by simp [h, hq],
          ?_, ?_, ?_, ?_, ?_⟩
        · rw [hr]
          have : ¬ u = w := fun e => h e.symm
          simp [this]
        · simp [List.filter_cons, h, hfilter]
        · intro hrt
          obtain ⟨h1, h2⟩ := hlens hrt
          simp [h1, h2]
        · intro v hv
          rw [getBallotFromUser_cons, getBallotFromUser_cons, hget v hv]
        · intro hrf
          rw [hfalse hrf]

/-- The two facts every call keeps: parallel lists of one length, and no user
listed twice. -/
theorem castVote_keeps (p : PublicBulletinBoard) (u : String)
    (b : EncryptedBallot) (hlen : p.UserIDs.length = p.Ballots.length)
    (hnd : p.UserIDs.Nodup) :
    ∃ q, p.CastVote u b = some q ∧
      q.UserIDs.length = q.Ballots.length ∧ q.UserIDs.Nodup := by
  cases hr : rangeUserIDs u p.UserIDs 0 with
  | some i =>
    obtain ⟨hi, _, _⟩ := rangeUserIDs_some u p.UserIDs i hr
    have hi2 : i < p.Ballots.length := hlen ▸ hi
    exact ⟨{ p with Ballots := p.Ballots.set i b },
      by simp [PublicBulletinBoard.CastVote, hr, hi2], by simp [hlen], hnd⟩
  | none =>
    have hnot : u ∉ p.UserIDs := (rangeUserIDs_none u p.UserIDs 0).1 hr
    refine ⟨{ UserIDs := p.UserIDs ++ [u], Ballots := p.Ballots ++ [b.Copy] },
      by simp [PublicBulletinBoard.CastVote, hr], by simp [hlen], ?_⟩
    rw [List.nodup_append]
    refine ⟨hnd, List.nodup_singleton u, ?_⟩
    intro a ha hau
    rw [List.mem_singleton] at hau
    exact hnot (hau ▸ ha)

theorem deleteUser_keeps (p : PublicBulletinBoard) (u : String)
    (hlen : p.UserIDs.length = p.Ballots.length) (hnd : p.UserIDs.Nodup) :
    ∃ r q, p.DeleteUser u = some (r, q) ∧
      q.UserIDs.length = q.Ballots.length ∧ q.UserIDs.Nodup := by
  obtain ⟨r, q, hq, _, hfilter, hlens, _, hfalse⟩ :=
    deleteUser_aux p.UserIDs p.Ballots u hlen hnd
  refine ⟨r, q, hq, ?_, ?_⟩
  · cases r with
    | true =>
      obtain ⟨h1, h2⟩ := hlens rfl
      omega
    | false =>
      rw [hfalse rfl]
      exact hlen
  · rw [hfilter]
    exact hnd.filter _

theorem calls_keep (ops : List BoardOp) (p : PublicBulletinBoard)
    (hlen : p.UserIDs.length = p.Ballots.length) (hnd : p.UserIDs.Nodup) :
    ∃ q, p.calls ops = some q ∧
      q.UserIDs.length = q.Ballots.length ∧ q.UserIDs.Nodup := by
  induction ops generalizing p with
  | nil => exact ⟨p, rfl, hlen, hnd⟩
  | cons op ops ih =>
    cases op with
    | CastVote u b =>
      obtain ⟨q, hq, h1, h2⟩ := castVote_keeps p u b hlen hnd
      obtain ⟨q2, hq2, h3, h4⟩ := ih q h1 h2
      exact ⟨q2, by simp [PublicBulletinBoard.calls, PublicBulletinBoard.call, hq, hq2],
        h3, h4⟩
    | DeleteUser u =>
      obtain ⟨r, q, hq, h1, h2⟩ := deleteUser_keeps p u hlen hnd
      obtain ⟨q2, hq2, h3, h4⟩ := ih q h1 h2
      exact ⟨q2, by simp [PublicBulletinBoard.calls, PublicBulletinBoard.call, hq, hq2],
        h3, h4⟩

theorem getBallotFromUser_total (p : PublicBulletinBoard) (u : String)
    (hlen : p.UserIDs.length = p.Ballots.length) :
    ∃ r, p.GetBallotFromUser u = some r := by
  cases hr : rangeUserIDs u p.UserIDs 0 with
  | some i =>
    obtain ⟨hi, _, _⟩ := rangeUserIDs_some u p.UserIDs i hr
    have hi2 : i < p.Ballots.length := hlen ▸ hi
    exact ⟨((p.Ballots.get ⟨i, hi2⟩).Copy, true),
      by simp [PublicBulletinBoard.GetBallotFromUser, hr, List.getElem?_eq_getElem hi2]⟩
  | none => exact ⟨([], false), by simp [PublicBulletinBoard.GetBallotFromUser, hr]⟩

/-! ## Helper lemmas: the varint of a seed -/

theorem truncated_seed (seed : List Byte) :
    (if seed.length > 8 then seed.take 8 else seed) = seed.take 8 := by
  split
  · rfl
  · rename_i h
    exact (List.take_of_length_le (by omega)).symm

theorem uvarintLoop_all_high (buf : List Byte) (i x s : Nat)
    (hi : i + buf.length ≤ 10) (h : ∀ b ∈ buf, 128 ≤ b.val) :
    uvarintLoop buf i x s = (0, 0) := by
  induction buf generalizing i x s with
  | nil => rfl
  | cons b rest ih =>
    have hb : ¬ b.val < 128 := by
      have := h b (by simp)
      omega
    have hi10 : ¬ i = 10 := by
      simp only [List.length_cons] at hi
      omega
    simp only [uvarintLoop, hi10, if_false, hb]
    exact ih _ _ _ (by simp only [List.length_cons] at hi; omega)
      (fun c hc => h c (by simp [hc]))

theorem uvarintLoop_pos (buf : List Byte) (i x s : Nat)
    (hi : i + buf.length ≤ 9) (h : ∃ b ∈ buf, b.val < 128) :
    0 < (uvarintLoop buf i x s).2 := by
  induction buf generalizing i x s with
  | nil => simp at h
  | cons b rest ih =>
    simp only [List.length_cons] at hi
    have hi10 : ¬ i = 10 := by omega
    have hi9 : ¬ (i = 9 ∧ b.val > 1) := by omega
    by_cases hb : b.val < 128
    · simp only [uvarintLoop, hi10, if_false, hb, if_true, hi9]
      omega
    · simp only [uvarintLoop, hi10, if_false, hb]
      apply ih _ _ _ (by omega)
      obtain ⟨c, hc, hlt⟩ := h
      rcases List.mem_cons.1 hc with e | e
      · exact absurd (e ▸ hlt) hb
      · exact ⟨c, e, hlt⟩

theorem newSemiRandomStream_eq (seed : List Byte) :
    NewSemiRandomStream seed
      = if (Varint (seed.take 8)).2 ≤ 0 then
          (⟨[], none⟩, some StreamError.wrongSize)
        else (⟨seed.take 8, some (Varint (seed.take 8)).1⟩, none) := by
  unfold NewSemiRandomStream
  simp only [truncated_seed]

theorem newSemiRandomStream_ok (seed : List Byte) (hlen : seed.length ≤ 8)
    (h : ∃ b ∈ seed, b.val < 128) :
    NewSemiRandomStream seed = (⟨seed, some (Varint seed).1⟩, none) := by
  have hpos : 0 < (Varint seed).2 := uvarintLoop_pos seed 0 0 0 (by omega) h
  have hn : ¬ (Varint seed).2 ≤ 0 := by omega
  have ht : seed.take 8 = seed := List.take_of_length_le hlen
  rw [newSemiRandomStream_eq, ht, if_neg hn]

theorem newSemiRandomStream_error (seed : List Byte) (hlen : seed.length ≤ 8)
    (h : ∀ b ∈ seed, 128 ≤ b.val) :
    NewSemiRandomStream seed = (⟨[], none⟩, some StreamError.wrongSize) := by
  have h0 : (Varint seed).2 = 0 := by
    show (uvarintLoop seed 0 0 0).2 = 0
    rw [uvarintLoop_all_high seed 0 0 0 (by omega) h]
  have ht : seed.take 8 = seed := List.take_of_length_le hlen
  rw [newSemiRandomStream_eq, ht, if_pos (by omega)]

/-! ## Helper lemmas: the columns of the ballots -/

theorem ballot_getElGPairs_exists {Point : Type}
    (GetPoints : Ciphertext → Option (Point × Point)) (b : EncryptedBallot)
    (hdec : ∀ ct ∈ b, ∃ k c, GetPoints ct = some (k, c)) :
    ∃ ks cs, EncryptedBallot.GetElGPairs GetPoints b = Except.ok (ks, cs) ∧
      ks.length = b.length ∧ cs.length = b.length ∧
      ∀ i ct k c, b.get? i = some ct → GetPoints ct = some (k, c) →
        ks.get? i = some k ∧ cs.get? i = some c := by
  induction b with
  | nil => exact ⟨[], [], rfl, rfl, rfl, by simp⟩
  | cons ct0 rest ih =>
    obtain ⟨k0, c0, hkc0⟩ := hdec ct0 (by simp)
    obtain ⟨ks, cs, h1, h2, h3, h4⟩ := ih (fun x hx => hdec x (by simp [hx]))
    refine ⟨k0 :: ks, c0 :: cs, by simp [EncryptedBallot.GetElGPairs, hkc0, h1],
      by simp [h2], by simp [h3], ?_⟩
    intro i ct k c hi hkc
    cases i with
    | zero =>
      simp only [List.get?_cons_zero, Option.some.injEq] at hi
      subst hi
      rw [hkc0] at hkc
      simp only [Option.some.injEq, Prod.mk.injEq] at hkc
      simp [hkc.1, hkc.2]
    | succ i =>
      simp only [List.get?_cons_succ] at hi ⊢
      exact h4 i ct k c hi hkc

theorem ballot_getElGPairs_ok {Point : Type}
    (GetPoints : Ciphertext → Option (Point × Point)) (b : EncryptedBallot)
    (hdec : ∀ ct ∈ b, ∃ k c, GetPoints ct = some (k, c)) :
    EncryptedBallot.GetElGPairs GetPoints b
        = Except.ok (pointsK GetPoints b, pointsC GetPoints b) ∧
      (pointsK GetPoints b).length = b.length ∧
      (pointsC GetPoints b).length = b.length ∧
      ∀ i ct k c, b.get? i = some ct → GetPoints ct = some (k, c) →
        (pointsK GetPoints b).get? i = some k ∧
        (pointsC GetPoints b).get? i = some c := by
  obtain ⟨ks, cs, h1, h2, h3, h4⟩ := ballot_getElGPairs_exists GetPoints b hdec
  have hk : pointsK GetPoints b = ks := by simp only [pointsK, h1]
  have hc : pointsC GetPoints b = cs := by simp only [pointsC, h1]
  rw [hk, hc]
  exact ⟨h1, h2, h3, h4⟩

theorem pointsK_rows_length {Point : Type}
    (GetPoints : Ciphertext → Option (Point × Point)) (L : Nat)
    (B : EncryptedBallots) (hL : ∀ b ∈ B, b.length = L)
    (hdec : ∀ b ∈ B, ∀ ct ∈ b, ∃ k c, GetPoints ct = some (k, c)) :
    ∀ row ∈ B.map (pointsK GetPoints), row.length = L := by
  intro row hrow
  obtain ⟨b2, hb2, rfl⟩ := List.mem_map.1 hrow
  rw [(ballot_getElGPairs_ok GetPoints b2 (hdec b2 hb2)).2.1]
  exact hL b2 hb2

theorem pointsC_rows_length {Point : Type}
    (GetPoints : Ciphertext → Option (Point × Point)) (L : Nat)
    (B : EncryptedBallots) (hL : ∀ b ∈ B, b.length = L)
    (hdec : ∀ b ∈ B, ∀ ct ∈ b, ∃ k c, GetPoints ct = some (k, c)) :
    ∀ row ∈ B.map (pointsC GetPoints), row.length = L := by
  intro row hrow
  obtain ⟨b2, hb2, rfl⟩ := List.mem_map.1 hrow
  rw [(ballot_getElGPairs_ok GetPoints b2 (hdec b2 hb2)).2.2.1]
  exact hL b2 hb2

theorem appendColumns_eq {Point : Type} (X : List (List Point)) (x : List Point)
    (h : X.length = x.length) :
    appendColumns X x = some (List.zipWith (fun col p => col ++ [p]) X x) := by
  induction X generalizing x with
  | nil =>
    cases x with
    | nil => rfl
    | cons p ps => simp at h
  | cons col cols ih =>
    cases x with
    | nil => simp at h
    | cons p ps =>
      simp only [List.length_cons, Nat.add_right_cancel_iff] at h
      simp [appendColumns, ih ps h]

theorem zipWith_append_cons {Point : Type} (A T : List (List Point))
    (x : List Point) (h1 : A.length = x.length) (h2 : T.length = x.length) :
    List.zipWith (fun a t => a ++ t)
        (List.zipWith (fun col p => col ++ [p]) A x) T
      = List.zipWith (fun a t => a ++ t) A
        (List.zipWith (fun p col => p :: col) x T) := by
  induction x generalizing A T with
  | nil =>
    cases A with
    | nil => rfl
    | cons a A => simp at h1
  | cons p ps ih =>
    cases A with
    | nil => simp at h1
    | cons a A =>
      cases T with
      | nil => simp at h2
      | cons t T =>
        simp only [List.length_cons, Nat.add_right_cancel_iff] at h1 h2
        simp [ih A T h1 h2]

theorem columnsOf_length {Point : Type} (L : Nat) (rows : List (List Point))
    (h : ∀ row ∈ rows, row.length = L) : (columnsOf L rows).length = L := by
  induction rows with
  | nil => simp [columnsOf]
  | cons row rows ih =>
    have h1 := h row (by simp)
    have h2 := ih (fun r hr => h r (by simp [hr]))
    simp [columnsOf, h1, h2]

theorem zipWith_append_nil {Point : Type} (L : Nat) (T : List (List Point))
    (h : T.length = L) :
    List.zipWith (fun a t => a ++ t) (List.replicate L ([] : List Point)) T = T := by
  induction T generalizing L with
  | nil => simp
  | cons t T ih =>
    cases L with
    | zero => simp at h
    | succ L =>
      simp only [List.length_cons, Nat.add_right_cancel_iff] at h
      simp [List.replicate_succ, ih L h]

theorem zipWith_append_replicate {Point : Type} (Z : List (List Point)) (L : Nat)
    (hZ : Z.length = L) :
    List.zipWith (fun a t => a ++ t) Z (List.replicate L ([] : List Point)) = Z := by
  induction Z generalizing L with
  | nil => simp
  | cons z Z ihz =>
    cases L with
    | zero => simp at hZ
    | succ L =>
      simp only [List.length_cons, Nat.add_right_cancel_iff] at hZ
      simp [List.replicate_succ, ihz L hZ]

/-- The loop of `GetElGPairs` appends to the columns it starts from the
columns of the ballots it reads. -/
theorem getElGPairsLoop_eq {Point : Type}
    (GetPoints : Ciphertext → Option (Point × Point)) (L : Nat)
    (B : List EncryptedBallot) (X Y : List (List Point))
    (hL : ∀ b ∈ B, b.length = L)
    (hdec : ∀ b ∈ B, ∀ ct ∈ b, ∃ k c, GetPoints ct = some (k, c))
    (hX : X.length = L) (hY : Y.length = L) :
    getElGPairsLoop GetPoints B X Y
      = some (Except.ok
          (List.zipWith (fun a t => a ++ t) X
            (columnsOf L (B.map (pointsK GetPoints))),
           List.zipWith (fun a t => a ++ t) Y
            (columnsOf L (B.map (pointsC GetPoints))))) := by
  induction B generalizing X Y with
  | nil =>
    simp only [getElGPairsLoop, List.map_nil, columnsOf]
    rw [zipWith_append_replicate X L hX, zipWith_append_replicate Y L hY]
  | cons b B ih =>
    have hb := hL b (by simp)
    obtain ⟨h1, h2, h3, _⟩ := ballot_getElGPairs_ok GetPoints b (hdec b (by simp))
    have hLB : ∀ b2 ∈ B, b2.length = L := fun b2 h => hL b2 (by simp [h])
    have hdB : ∀ b2 ∈ B, ∀ ct ∈ b2, ∃ k c, GetPoints ct = some (k, c) :=
      fun b2 h => hdec b2 (by simp [h])
    have hkL := pointsK_rows_length GetPoints L B hLB hdB
    have hcL := pointsC_rows_length GetPoints L B hLB hdB
    simp only [getElGPairsLoop, h1,
      appendColumns_eq X _ (by rw [hX, h2, hb]),
      appendColumns_eq Y _ (by rw [hY, h3, hb])]
    rw [ih _ _ hLB hdB (by simp [hX, h2, hb]) (by simp [hY, h3, hb])]
    simp only [List.map_cons, columnsOf]
    rw [zipWith_append_cons X _ _ (by rw [hX, h2, hb])
        (by rw [columnsOf_length L _ hkL, h2, hb]),
      zipWith_append_cons Y _ _ (by rw [hY, h3, hb])
        (by rw [columnsOf_length L _ hcL, h3, hb])]
theorem getElGPairs_eq {Point : Type}
    (GetPoints : Ciphertext → Option (Point × Point)) (L : Nat)
    (B : EncryptedBallots) (hne : B ≠ [])
    (hL : ∀ b ∈ B, b.length = L)
    (hdec : ∀ b ∈ B, ∀ ct ∈ b, ∃ k c, GetPoints ct = some (k, c)) :
    EncryptedBallots.GetElGPairs GetPoints B
      = some (Except.ok (columnsOf L (B.map (pointsK GetPoints)),
          columnsOf L (B.map (pointsC GetPoints)))) := by
  cases B with
  | nil => exact absurd rfl hne
  | cons first rest =>
    have hf : first.length = L := hL first (by simp)
    have hkL := pointsK_rows_length GetPoints L (first :: rest) hL hdec
    have hcL := pointsC_rows_length GetPoints L (first :: rest) hL hdec
    simp only [EncryptedBallots.GetElGPairs, hf]
    rw [getElGPairsLoop_eq GetPoints L _ _ _ hL hdec (by simp) (by simp),
      zipWith_append_nil L _ (columnsOf_length L _ hkL),
      zipWith_append_nil L _ (columnsOf_length L _ hcL)]

theorem zipWith_cons_get {Point : Type} (row : List Point) (T : List (List Point))
    (c : Nat) (p : Point) (col : List Point)
    (h1 : row.get? c = some p) (h2 : T.get? c = some col) :
    (List.zipWith (fun p col => p :: col) row T).get? c = some (p :: col) := by
  induction row generalizing T c with
  | nil => simp at h1
  | cons r row ih =>
    cases T with
    | nil => simp at h2
    | cons t T =>
      cases c with
      | zero =>
        simp only [List.get?_cons_zero, Option.some.injEq] at h1 h2
        simp [h1, h2]
      | succ c =>
        simp only [List.get?_cons_succ] at h1 h2
        simpa using ih T c h1 h2

theorem zipWith_cons_mem {Point : Type} (row : List Point) (T : List (List Point))
    (col : List Point)
    (h : col ∈ List.zipWith (fun p col => p :: col) row T) :
    ∃ p t, t ∈ T ∧ col = p :: t := by
  induction row generalizing T with
  | nil => simp at h
  | cons r row ih =>
    cases T with
    | nil => simp at h
    | cons t T =>
      simp only [List.zipWith_cons_cons, List.mem_cons] at h
      rcases h with h | h
      · exact ⟨r, t, by simp, h⟩
      · obtain ⟨p, t2, ht2, e⟩ := ih T h
        exact ⟨p, t2, by simp [ht2], e⟩

theorem columnsOf_col_length {Point : Type} (L : Nat) (rows : List (List Point))
    (col : List Point) (h : col ∈ columnsOf L rows) :
    col.length = rows.length := by
  induction rows generalizing col with
  | nil =>
    simp only [columnsOf] at h
    rw [List.eq_of_mem_replicate h]
    rfl
  | cons row rows ih =>
    simp only [columnsOf] at h
    obtain ⟨p, t, ht, e⟩ := zipWith_cons_mem row _ col h
    rw [e, List.length_cons, List.length_cons, ih t ht]

/-- Entry `b` of column `c` is entry `c` of row `b`. -/
theorem columnsOf_get {Point : Type} (L : Nat) (rows : List (List Point))
    (hL : ∀ row ∈ rows, row.length = L) (b c : Nat) (row : List Point)
    (p : Point) (hb : rows.get? b = some row) (hc : row.get? c = some p) :
    ((columnsOf L rows).get? c).bind (fun col => col.get? b) = some p := by
  induction rows generalizing b with
  | nil => simp at hb
  | cons row0 rest ih =>
    have hrest : ∀ r ∈ rest, r.length = L := fun r hr => hL r (by simp [hr])
    have hlen0 : row0.length = L := hL row0 (by simp)
    have hrow : row.length = L := hL row (List.get?_mem hb)
    have hcL : c < L := by
      rw [← hrow]
      exact (List.get?_eq_some.1 hc).1
    have hT : (columnsOf L rest).length = L := columnsOf_length L rest hrest
    obtain ⟨col, hcol⟩ : ∃ col, (columnsOf L rest).get? c = some col :=
      ⟨(columnsOf L rest).get ⟨c, by omega⟩, List.get?_eq_get _⟩
    obtain ⟨p0, hp0⟩ : ∃ p0, row0.get? c = some p0 :=
      ⟨row0.get ⟨c, by omega⟩, List.get?_eq_get _⟩
    simp only [columnsOf]
    rw [zipWith_cons_get row0 _ c p0 col hp0 hcol]
    cases b with
    | zero =>
      simp only [List.get?_cons_zero, Option.some.injEq] at hb
      subst hb
      rw [hp0] at hc
      simpa using hc
    | succ b =>
      simp only [List.get?_cons_succ] at hb
      have := ih hrest b hb
      rw [hcol] at this
      simpa using this
theorem column_zipWith_zero {Point : Type} (row : List Point)
    (T : List (List Point)) (h : row.length = T.length) :
    column (List.zipWith (fun p col => p :: col) row T) 0 = some row := by
  induction row generalizing T with
  | nil =>
    cases T with
    | nil => rfl
    | cons t T => simp at h
  | cons r row ih =>
    cases T with
    | nil => simp at h
    | cons t T =>
      simp only [List.length_cons, Nat.add_right_cancel_iff] at h
      simp [column, ih T h]

theorem column_zipWith_succ {Point : Type} (row : List Point)
    (T : List (List Point)) (i : Nat) (h : row.length = T.length) :
    column (List.zipWith (fun p col => p :: col) row T) (i + 1) = column T i := by
  induction row generalizing T with
  | nil =>
    cases T with
    | nil => rfl
    | cons t T => simp at h
  | cons r row ih =>
    cases T with
    | nil => simp at h
    | cons t T =>
      simp only [List.length_cons, Nat.add_right_cancel_iff] at h
      simp [column, ih T h]

theorem initFromElGPairsLoop_succ {Point : Type}
    (FromPoints : Point → Point → Option Ciphertext)
    (x y : List Point) (TX TY : List (List Point))
    (hx : x.length = TX.length) (hy : y.length = TY.length) (n i : Nat) :
    initFromElGPairsLoop FromPoints
        (List.zipWith (fun p col => p :: col) x TX)
        (List.zipWith (fun p col => p :: col) y TY) n (i + 1)
      = initFromElGPairsLoop FromPoints TX TY n i := by
  induction n generalizing i with
  | zero => rfl
  | succ n ih =>
    simp only [initFromElGPairsLoop, column_zipWith_succ x TX i hx,
      column_zipWith_succ y TY i hy, ih (i + 1)]

theorem fromPointsLoop_inverse {Point : Type}
    (GetPoints : Ciphertext → Option (Point × Point))
    (FromPoints : Point → Point → Option Ciphertext)
    (hinv : ∀ ct k c, GetPoints ct = some (k, c) → FromPoints k c = some ct)
    (b : EncryptedBallot) (ks cs : List Point)
    (h : EncryptedBallot.GetElGPairs GetPoints b = Except.ok (ks, cs)) :
    fromPointsLoop FromPoints ks cs = (none, b) := by
  induction b generalizing ks cs with
  | nil =>
    simp only [EncryptedBallot.GetElGPairs, Except.ok.injEq, Prod.mk.injEq] at h
    rw [← h.1, ← h.2]
    rfl
  | cons ct rest ih =>
    simp only [EncryptedBallot.GetElGPairs] at h
    cases hg : GetPoints ct with
    | none => simp [hg] at h
    | some kc =>
      obtain ⟨k, c⟩ := kc
      simp only [hg] at h
      cases hr : EncryptedBallot.GetElGPairs GetPoints rest with
      | error e => simp [hr] at h
      | ok r =>
        obtain ⟨ks2, cs2⟩ := r
        simp only [hr, Except.ok.injEq, Prod.mk.injEq] at h
        rw [← h.1, ← h.2]
        simp [fromPointsLoop, hinv ct k c hg, ih ks2 cs2 hr]

theorem ballot_initFromElGPairs_inverse {Point : Type}
    (GetPoints : Ciphertext → Option (Point × Point))
    (FromPoints : Point → Point → Option Ciphertext)
    (hinv : ∀ ct k c, GetPoints ct = some (k, c) → FromPoints k c = some ct)
    (b b0 : EncryptedBallot)
    (hdec : ∀ ct ∈ b, ∃ k c, GetPoints ct = some (k, c)) :
    EncryptedBallot.InitFromElGPairs FromPoints b0 (pointsK GetPoints b)
        (pointsC GetPoints b) = (none, b) := by
  obtain ⟨h1, h2, h3, _⟩ := ballot_getElGPairs_ok GetPoints b hdec
  have hlen : ¬ (pointsK GetPoints b).length ≠ (pointsC GetPoints b).length := by
    rw [h2, h3]
    simp
  simp only [EncryptedBallot.InitFromElGPairs, hlen, if_false]
  exact fromPointsLoop_inverse GetPoints FromPoints hinv b _ _ h1

/-- The loop of `InitFromElGPairs` over the columns of a list of ballots
rebuilds the ballots. -/
theorem initFromElGPairsLoop_columns {Point : Type}
    (GetPoints : Ciphertext → Option (Point × Point))
    (FromPoints : Point → Point → Option Ciphertext)
    (hinv : ∀ ct k c, GetPoints ct = some (k, c) → FromPoints k c = some ct)
    (L : Nat) (B : EncryptedBallots) (hL : ∀ b ∈ B, b.length = L)
    (hdec : ∀ b ∈ B, ∀ ct ∈ b, ∃ k c, GetPoints ct = some (k, c)) :
    initFromElGPairsLoop FromPoints (columnsOf L (B.map (pointsK GetPoints)))
        (columnsOf L (B.map (pointsC GetPoints))) B.length 0
      = some (none, B) := by
  induction B with
  | nil => rfl
  | cons b B ih =>
    have hb := hL b (by simp)
    obtain ⟨_, h2, h3, _⟩ := ballot_getElGPairs_ok GetPoints b (hdec b (by simp))
    have hLB : ∀ b2 ∈ B, b2.length = L := fun b2 h => hL b2 (by simp [h])
    have hdB : ∀ b2 ∈ B, ∀ ct ∈ b2, ∃ k c, GetPoints ct = some (k, c) :=
      fun b2 h => hdec b2 (by simp [h])
    have hkL := pointsK_rows_length GetPoints L B hLB hdB
    have hcL := pointsC_rows_length GetPoints L B hLB hdB
    have hx : (pointsK GetPoints b).length
        = (columnsOf L (B.map (pointsK GetPoints))).length := by
      rw [columnsOf_length L _ hkL, h2, hb]
    have hy : (pointsC GetPoints b).length
        = (columnsOf L (B.map (pointsC GetPoints))).length := by
      rw [columnsOf_length L _ hcL, h3, hb]
    simp only [List.map_cons, columnsOf, List.length_cons, initFromElGPairsLoop,
      column_zipWith_zero _ _ hx, column_zipWith_zero _ _ hy,
      ballot_initFromElGPairs_inverse GetPoints FromPoints hinv b []
        (hdec b (by simp)),
      initFromElGPairsLoop_succ FromPoints _ _ _ _ hx hy, ih hLB hdB]

/-! ## Helper lemmas: the toy embedding and the encodings -/

theorem toyEmbed_pos (chunk : List Byte) : 1 ≤ toyEmbed chunk := by
  induction chunk with
  | nil => simp [toyEmbed]
  | cons b bs ih =>
    simp only [toyEmbed]
    have : (0 : Int) ≤ (b.val : Int) := Int.ofNat_nonneg _
    omega

theorem toyDataLoop_toyEmbed (fuel : Nat) (chunk : List Byte)
    (h : chunk.length ≤ fuel) : toyDataLoop fuel (toyEmbed chunk) = chunk := by
  induction chunk generalizing fuel with
  | nil =>
    cases fuel with
    | zero => rfl
    | succ fuel => simp [toyDataLoop, toyEmbed]
  | cons b bs ih =>
    cases fuel with
    | zero => simp at h
    | succ fuel =>
      simp only [List.length_cons, Nat.add_le_add_iff_right] at h
      have hpos := toyEmbed_pos bs
      have hb : (b.val : Int) < 256 := by
        have := b.isLt
        omega
      have hb0 : (0 : Int) ≤ (b.val : Int) := Int.ofNat_nonneg _
      have hgt : ¬ ((b.val : Int) + 256 * toyEmbed bs ≤ 1) := by omega
      have hmod : ((b.val : Int) + 256 * toyEmbed bs) % 256 = (b.val : Int) := by
        omega
      have hdiv : ((b.val : Int) + 256 * toyEmbed bs) / 256 = toyEmbed bs := by
        omega
      simp only [toyDataLoop, toyEmbed, hgt, if_false, hdiv, ih fuel h]
      congr 1
      apply Fin.ext
      simp [hmod]

theorem toyData_toyEmbed (chunk : List Byte) (h : chunk.length ≤ 29) :
    toyData (toyEmbed chunk) = chunk :=
  toyDataLoop_toyEmbed 29 chunk h

theorem unmarshalAll_map {α : Type} (marshal : α → List Byte)
    (unmarshal : List Byte → Option α)
    (h : ∀ a, unmarshal (marshal a) = some a) (l : List α) :
    unmarshalAll unmarshal (l.map marshal) = some l := by
  induction l with
  | nil => rfl
  | cons a l ih => simp [unmarshalAll, h a, ih]

theorem state_roundtrip {Scalar Point Address : Type}
    (codec : Codec Scalar Point Address)
    (hpoint : ∀ p, codec.unmarshalPoint (codec.marshalPoint p) = some p)
    (haddr : ∀ a, codec.unmarshalAddress (codec.marshalAddress a) = some a)
    (s : state Point Address) :
    state.UnmarshalJSON codec (state.MarshalJSON codec s) = some s := by
  obtain ⟨key, ps⟩ := s
  cases key <;> cases ps <;>
    simp [state.UnmarshalJSON, state.MarshalJSON, hpoint,
      unmarshalAll_map codec.marshalAddress codec.unmarshalAddress haddr]

theorem handlerData_roundtrip {Scalar Point Address : Type}
    (codec : Codec Scalar Point Address)
    (hscalar : ∀ x, codec.unmarshalScalar (codec.marshalScalar x) = some x)
    (hpoint : ∀ p, codec.unmarshalPoint (codec.marshalPoint p) = some p)
    (haddr : ∀ a, codec.unmarshalAddress (codec.marshalAddress a) = some a)
    (hd : HandlerData Scalar Point Address) :
    HandlerData.UnmarshalJSON codec (HandlerData.MarshalJSON codec hd)
      = some hd := by
  obtain ⟨st, sh, pub, priv⟩ := hd
  have hst := state_roundtrip codec hpoint haddr st
  cases sh with
  | none =>
    simp [HandlerData.UnmarshalJSON, HandlerData.MarshalJSON, hst, hpoint, hscalar]
  | some sh =>
    obtain ⟨i, v⟩ := sh
    simp [HandlerData.UnmarshalJSON, HandlerData.MarshalJSON, hst, hpoint, hscalar]

/-! ## Helper lemmas: the value of the varint and the first occurrence -/

theorem lor_shift_eq_add (x y s : Nat) (hx : x < 2 ^ s)
    (hy : y * 2 ^ s < 2 ^ 64) :
    x ||| ((y <<< s) % 2 ^ 64) = x + 2 ^ s * y := by
  rw [Nat.shiftLeft_eq, Nat.mod_eq_of_lt hy, Nat.lor_comm, Nat.mul_comm y,
    ← Nat.mul_add_lt_is_or hx y, Nat.add_comm]

theorem base128_lt (bs : List Byte) : base128 bs < 2 ^ (7 * bs.length) := by
  induction bs with
  | nil => simp [base128]
  | cons b bs ih =>
    simp only [base128, List.length_cons]
    have h7 : 2 ^ (7 * (bs.length + 1)) = 128 * 2 ^ (7 * bs.length) := by
      rw [Nat.mul_add, Nat.pow_add]
      norm_num
      ring
    rw [h7]
    have := Nat.mod_lt b.val (by decide : 128 > 0)
    omega

/-- The loop of `Uvarint` on a varint that ends within the first 8 bytes: the
bytes with the top bit set, then the first byte below 0x80, then anything. -/
theorem uvarintLoop_value (pre : List Byte) (b : Byte) (rest : List Byte)
    (i x : Nat) (hi : i + pre.length ≤ 7) (hx : x < 2 ^ (7 * i))
    (hpre : ∀ c ∈ pre, 128 ≤ c.val) (hb : b.val < 128) :
    uvarintLoop (pre ++ b :: rest) i x (7 * i)
      = (x + 2 ^ (7 * i) * base128 (pre ++ [b]),
          ((i + pre.length + 1 : Nat) : Int)) := by
  induction pre generalizing i x with
  | nil =>
    simp only [List.length_nil, Nat.add_zero] at hi
    have hi10 : ¬ i = 10 := by omega
    have hi9 : ¬ (i = 9 ∧ b.val > 1) := by omega
    have hpow : 2 ^ (7 * i) ≤ 2 ^ 49 :=
      Nat.pow_le_pow_right (by decide) (by omega)
    have hy : b.val * 2 ^ (7 * i) < 2 ^ 64 := by
      calc b.val * 2 ^ (7 * i) ≤ 127 * 2 ^ 49 :=
            Nat.mul_le_mul (by omega) hpow
        _ < 2 ^ 64 := by norm_num
    simp only [List.nil_append, uvarintLoop, hi10, if_false, hb, if_true, hi9,
      lor_shift_eq_add x b.val (7 * i) hx hy, base128, List.length_nil]
    rw [Nat.mod_eq_of_lt hb]
    simp
  | cons c pre ih =>
    simp only [List.length_cons] at hi
    have hc : ¬ c.val < 128 := by
      have := hpre c (by simp)
      omega
    have hi10 : ¬ i = 10 := by omega
    have hand : c.val &&& 0x7f = c.val % 128 :=
      Nat.and_pow_two_sub_one_eq_mod c.val 7
    have hmod := Nat.mod_lt c.val (by decide : 128 > 0)
    have hpow : 2 ^ (7 * i) ≤ 2 ^ 49 :=
      Nat.pow_le_pow_right (by decide) (by omega)
    have hy : c.val % 128 * 2 ^ (7 * i) < 2 ^ 64 := by
      calc c.val % 128 * 2 ^ (7 * i) ≤ 127 * 2 ^ 49 :=
            Nat.mul_le_mul (by omega) hpow
        _ < 2 ^ 64 := by norm_num
    have h7 : 2 ^ (7 * (i + 1)) = 2 ^ (7 * i) * 128 := by
      rw [Nat.mul_add, Nat.pow_add]
    have hx2 : x + 2 ^ (7 * i) * (c.val % 128) < 2 ^ (7 * (i + 1)) := by
      rw [h7]
      have : 2 ^ (7 * i) * (c.val % 128) ≤ 2 ^ (7 * i) * 127 :=
        Nat.mul_le_mul_left _ (by omega)
      omega
    have hs : 7 * i + 7 = 7 * (i + 1) := by omega
    show uvarintLoop (c :: (pre ++ b :: rest)) i x (7 * i) = _
    simp only [uvarintLoop, hi10, if_false, hc, hand,
      lor_shift_eq_add x (c.val % 128) (7 * i) hx hy, hs]
    rw [ih (i + 1) _ (by omega) hx2 (fun d hd => hpre d (by simp [hd]))]
    have hb128 : base128 (c :: pre ++ [b])
        = c.val % 128 + 128 * base128 (pre ++ [b]) := rfl
    rw [hb128, h7]
    simp only [List.length_cons, Prod.mk.injEq]
    constructor
    · ring
    · congr 1
      omega

theorem varint_zigzag (r : Nat × Int) :
    (if r.1 &&& 1 ≠ 0 then -((r.1 >>> 1 : Nat) : Int) - 1
      else ((r.1 >>> 1 : Nat) : Int)) = zigzag r.1 := by
  have h1 : r.1 >>> 1 = r.1 / 2 := by
    rw [Nat.shiftRight_eq_div_pow]
  rw [Nat.and_one_is_mod, h1]
  unfold zigzag
  have := Nat.mod_two_eq_zero_or_one r.1
  by_cases h : r.1 % 2 = 1
  · simp [h]
  · have h0 : r.1 % 2 = 0 := by omega
    simp [h0]
theorem newSemiRandomStream_take (seed : List Byte) :
    NewSemiRandomStream seed = NewSemiRandomStream (seed.take 8) := by
  rw [newSemiRandomStream_eq, newSemiRandomStream_eq (seed.take 8),
    List.take_take, Nat.min_self]

theorem split_first_low (l : List Byte) (h : ∃ b ∈ l, b.val < 128) :
    ∃ pre b rest, l = pre ++ b :: rest ∧ (∀ c ∈ pre, 128 ≤ c.val) ∧
      b.val < 128 := by
  induction l with
  | nil => simp at h
  | cons a l ih =>
    by_cases ha : a.val < 128
    · exact ⟨[], a, l, rfl, by simp, ha⟩
    · have hl : ∃ b ∈ l, b.val < 128 := by
        obtain ⟨c, hc, hlt⟩ := h
        rcases List.mem_cons.1 hc with e | e
        · exact absurd (e ▸ hlt) ha
        · exact ⟨c, e, hlt⟩
      obtain ⟨pre, b, rest, e, hpre, hb⟩ := ih hl
      refine ⟨a :: pre, b, rest, by rw [e]; rfl, ?_, hb⟩
      intro c hc
      rcases List.mem_cons.1 hc with e2 | e2
      · rw [e2]
        omega
      · exact hpre c e2

/-- The stream of a seed whose varint ends within the first 8 bytes. -/
theorem newSemiRandomStream_value (pre : List Byte) (b : Byte)
    (rest : List Byte) (hlen : pre.length < 8)
    (hpre : ∀ c ∈ pre, 128 ≤ c.val) (hb : b.val < 128) :
    NewSemiRandomStream (pre ++ b :: rest)
      = (⟨(pre ++ b :: rest).take 8, some (zigzag (base128 (pre ++ [b])))⟩,
          none) := by
  have htake : (pre ++ b :: rest).take 8
      = pre ++ b :: rest.take (7 - pre.length) := by
    have h8 : 8 - pre.length = (7 - pre.length) + 1 := by omega
    rw [List.take_append_eq_append_take, List.take_of_length_le (by omega), h8,
      List.take_succ_cons]
  have hloop := uvarintLoop_value pre b (rest.take (7 - pre.length)) 0 0
    (by omega) (by norm_num) hpre hb
  have hU : Uvarint (pre ++ b :: rest.take (7 - pre.length))
      = (base128 (pre ++ [b]), ((pre.length + 1 : Nat) : Int)) := by
    have : uvarintLoop (pre ++ b :: rest.take (7 - pre.length)) 0 0 0
        = (0 + 2 ^ (7 * 0) * base128 (pre ++ [b]),
            ((0 + pre.length + 1 : Nat) : Int)) := hloop
    simpa [Uvarint] using this
  have hV1 : (Varint (pre ++ b :: rest.take (7 - pre.length))).1
      = zigzag (base128 (pre ++ [b])) := by
    have := varint_zigzag (Uvarint (pre ++ b :: rest.take (7 - pre.length)))
    rw [hU] at this
    simp only [Varint, hU]
    exact this
  have hV2 : (Varint (pre ++ b :: rest.take (7 - pre.length))).2
      = ((pre.length + 1 : Nat) : Int) := by
    simp only [Varint, hU]
  have hn : ¬ ((pre.length + 1 : Nat) : Int) ≤ 0 := by omega
  rw [newSemiRandomStream_eq, htake, hV1, hV2, if_neg hn]

theorem erase_first_index (l : List Int) (n : Int) (k : Nat)
    (hget : l.get? k = some n) (hfirst : ∀ j, j < k → l.get? j ≠ some n) :
    l.take k ++ l.drop (k + 1) = l.erase n := by
  induction l generalizing k with
  | nil => simp at hget
  | cons a rest ih =>
    cases k with
    | zero =>
      simp only [List.get?_cons_zero, Option.some.injEq] at hget
      simp [hget]
    | succ k =>
      have ha : ¬ a = n := by
        have := hfirst 0 (by omega)
        simpa using this
      simp only [List.get?_cons_succ] at hget
      have hrest : ∀ j, j < k → rest.get? j ≠ some n := by
        intro j hj
        have := hfirst (j + 1) (by omega)
        simpa using this
      have := ih k hget hrest
      simp only [List.take_succ_cons, List.drop_succ_cons, List.cons_append, this]
      rw [List.erase_cons]
      simp [ha]

/-! ## Properties of the bulletin board -/

/-- C1. Last-write-wins: on a board whose two lists have the same length,
`CastVote(u, b)` returns normally and afterwards `GetBallotFromUser(u)` returns
`(b, true)`, whether or not `u` had voted before. -/
theorem castVote_then_getBallot (p : PublicBulletinBoard) (u : String)
    (b : EncryptedBallot) (hlen : p.UserIDs.length = p.Ballots.length) :
    ∃ q, p.CastVote u b = some q ∧ q.GetBallotFromUser u = some (b, true) := by
  cases hr : rangeUserIDs u p.UserIDs 0 with
  | some i =>
    obtain ⟨hi, _, _⟩ := rangeUserIDs_some u p.UserIDs i hr
    have hi2 : i < p.Ballots.length := hlen ▸ hi
    refine ⟨{ p with Ballots := p.Ballots.set i b }, ?_, ?_⟩
    · simp [PublicBulletinBoard.CastVote, hr, hi2]
    · simp [PublicBulletinBoard.GetBallotFromUser, hr, hi2,
        encryptedBallot_copy_eq]
  | none =>
    have hnot : u ∉ p.UserIDs := (rangeUserIDs_none u p.UserIDs 0).1 hr
    refine ⟨{ UserIDs := p.UserIDs ++ [u], Ballots := p.Ballots ++ [b.Copy] },
      ?_, ?_⟩
    · simp [PublicBulletinBoard.CastVote, hr]
    · simp [PublicBulletinBoard.GetBallotFromUser,
        rangeUserIDs_append_new u p.UserIDs hnot, hlen,
        encryptedBallot_copy_eq]

/-- Witness of C1 on a board with one voter, for a second voter. -/
theorem castVote_then_getBallot_witness :
    ∃ q, PublicBulletinBoard.CastVote ⟨["alice"], [[⟨[1], [2]⟩]]⟩ "bob" [⟨[3], [4]⟩]
        = some q ∧
      q.GetBallotFromUser "bob" = some ([⟨[3], [4]⟩], true) :=
  castVote_then_getBallot ⟨["alice"], [[⟨[1], [2]⟩]]⟩ "bob" [⟨[3], [4]⟩] rfl

/-- C2. CastVote preserves insertion order. On a board whose two lists have
the same length: when `u` is already listed, `CastVote(u, b)` returns normally,
leaves `UserIDs` as it was and the length of `Ballots` too, and every ballot at
an index other than the first index of `u` is what it was; when `u` is not
listed, it returns normally, the two lists are the old ones followed by `u` and
by `b`, and every earlier index holds the same user and the same ballot. -/
theorem castVote_frame (p : PublicBulletinBoard) (u : String)
    (b : EncryptedBallot) (hlen : p.UserIDs.length = p.Ballots.length) :
    (u ∈ p.UserIDs → ∃ q i, p.CastVote u b = some q ∧
        p.UserIDs.get? i = some u ∧ (∀ j, j < i → p.UserIDs.get? j ≠ some u) ∧
        q.UserIDs = p.UserIDs ∧ q.Ballots.length = p.Ballots.length ∧
        ∀ j, j ≠ i → q.Ballots.get? j = p.Ballots.get? j) ∧
    (u ∉ p.UserIDs → ∃ q, p.CastVote u b = some q ∧
        q.UserIDs = p.UserIDs ++ [u] ∧ q.Ballots = p.Ballots ++ [b] ∧
        ∀ j, j < p.UserIDs.length →
          q.UserIDs.get? j = p.UserIDs.get? j ∧
          q.Ballots.get? j = p.Ballots.get? j) := by
  constructor
  · intro hmem
    cases hr : rangeUserIDs u p.UserIDs 0 with
    | none => exact absurd hmem ((rangeUserIDs_none u p.UserIDs 0).1 hr)
    | some i =>
      obtain ⟨hi, hget, hfirst⟩ := rangeUserIDs_some u p.UserIDs i hr
      have hi2 : i < p.Ballots.length := hlen ▸ hi
      refine ⟨{ p with Ballots := p.Ballots.set i b }, i, ?_, hget, hfirst,
        rfl, by simp, ?_⟩
      · simp [PublicBulletinBoard.CastVote, hr, hi2]
      · intro j hj
        simp [List.getElem?_set, Ne.symm hj]
  · intro hnot
    have hr : rangeUserIDs u p.UserIDs 0 = none :=
      (rangeUserIDs_none u p.UserIDs 0).2 hnot
    refine ⟨{ UserIDs := p.UserIDs ++ [u], Ballots := p.Ballots ++ [b] },
      ?_, rfl, rfl, ?_⟩
    · simp [PublicBulletinBoard.CastVote, hr, encryptedBallot_copy_eq]
    · intro j hj
      have hj2 : j < p.Ballots.length := hlen ▸ hj
      simp [List.getElem?_append_left, hj, hj2]

/-- Witness of C2 on a board with two voters. -/
theorem castVote_frame_witness :
    ∃ q, PublicBulletinBoard.CastVote
          ⟨["alice", "bob"], [[⟨[1], [2]⟩], [⟨[5], [6]⟩]]⟩ "carol" [⟨[3], [4]⟩]
        = some q ∧
      q.UserIDs = ["alice", "bob"] ++ ["carol"] ∧
      q.Ballots = [[⟨[1], [2]⟩], [⟨[5], [6]⟩]] ++ [[⟨[3], [4]⟩]] ∧
      ∀ j, j < ["alice", "bob"].length →
        q.UserIDs.get? j = ["alice", "bob"].get? j ∧
        q.Ballots.get? j
          = List.get? [[(⟨[1], [2]⟩ : Ciphertext)], [⟨[5], [6]⟩]] j :=
  (castVote_frame ⟨["alice", "bob"], [[⟨[1], [2]⟩], [⟨[5], [6]⟩]]⟩ "carol"
    [⟨[3], [4]⟩] rfl).2 (by decide)

/-! ## Properties of the admin form -/

/-- The list step behind `AddAdmin` then `RemoveAdmin`: when `k` is the first
index of `n` in the list followed by `n`, cutting index `k` out is within
range and leaves a list that contains `n` exactly when the first list did. -/
theorem add_then_remove_list (l : List Int) (n : Int) (k : Nat)
    (hget : (l ++ [n]).get? k = some n)
    (hfirst : ∀ j, j < k → (l ++ [n]).get? j ≠ some n) :
    k + 1 ≤ (l ++ [n]).length ∧
    (n ∈ (l ++ [n]).take k ++ (l ++ [n]).drop (k + 1) ↔ n ∈ l) := by
  have hlast : (l ++ [n]).get? l.length = some n := by simp
  have hk : k ≤ l.length := by
    by_contra hc
    exact hfirst l.length (by omega) hlast
  refine ⟨by simp; omega, ?_⟩
  rcases Nat.lt_or_eq_of_le hk with hlt | heq
  · have hmem : n ∈ l := by
      have : l.get? k = some n := by
        simpa [List.getElem?_append_left, hlt] using hget
      exact List.get?_mem this
    have hdrop : n ∈ (l ++ [n]).drop (k + 1) := by
      rw [List.drop_append_of_le_length (by omega)]
      simp
    simp [hmem, hdrop]
  · subst heq
    simp

/-- C3, as amended. After `AddAdmin(u)` followed by `RemoveAdmin(u)`, the
second call returns normally and `IsAdmin(u)` returns -1 exactly when it
returned -1 on the form the two calls started from: a user who was not an admin
is not one afterwards, and a user who was already listed still is. -/
theorem addAdmin_removeAdmin_isAdmin (af : AdminForm) (u : String) :
    ∃ e af2, (af.AddAdmin u).2.RemoveAdmin u = some (e, af2) ∧
      (af2.IsAdmin u = -1 ↔ af.IsAdmin u = -1) := by
  cases hp : Atoi u with
  | none =>
    exact ⟨some AdminError.convertSciper, af,
      by simp [AdminForm.AddAdmin, AdminForm.RemoveAdmin, hp], Iff.rfl⟩
  | some n =>
    obtain ⟨k, hk, hget, hfirst⟩ :=
      isAdminLoop_of_mem n (af.AdminList ++ [n]) 0 (by simp)
    obtain ⟨hlen, hiff⟩ := add_then_remove_list af.AdminList n k hget hfirst
    have hk2 : isAdminLoop n (af.AdminList ++ [n]) 0 = (k : Int) := by
      simpa using hk
    refine ⟨none, { af with AdminList := (af.AdminList ++ [n]).take k
        ++ (af.AdminList ++ [n]).drop (k + 1) }, ?_, ?_⟩
    · have hnn : ¬ ((k : Int) < 0) := by omega
      simp only [AdminForm.AddAdmin, AdminForm.RemoveAdmin, AdminForm.IsAdmin,
        hp, hk2, hnn, if_false, Int.toNat_ofNat, hlen, if_true]
    · simp only [AdminForm.IsAdmin, hp, isAdminLoop_eq_neg_one]
      exact not_congr hiff

/-- C3, the claim as written fails: on the form whose list is `[5]`,
`AddAdmin("5")` then `RemoveAdmin("5")` leaves the list `[5]`, where
`IsAdmin("5")` returns 0 and not -1. -/
theorem addAdmin_removeAdmin_isAdmin_counterexample :
    (AdminForm.AddAdmin ⟨"form", [5]⟩ "5").2.RemoveAdmin "5"
        = some (none, ⟨"form", [5]⟩) ∧
      AdminForm.IsAdmin ⟨"form", [5]⟩ "5" = 0 ∧
      AdminForm.IsAdmin ⟨"form", [5]⟩ "5" ≠ -1 := by
  decide

/-- C4. `IsAdmin` returns the index of the admin or -1: the result is
non-negative exactly when the user ID parses to an integer of the list; it is
then the smallest index holding that integer; in every other case it is -1. -/
theorem isAdmin_index_or_neg_one (af : AdminForm) (u : String) :
    (0 ≤ af.IsAdmin u ↔ ∃ n, Atoi u = some n ∧ n ∈ af.AdminList) ∧
    (∀ n, Atoi u = some n → n ∈ af.AdminList →
      ∃ i : Nat, af.IsAdmin u = (i : Int) ∧ af.AdminList.get? i = some n ∧
        ∀ j, j < i → af.AdminList.get? j ≠ some n) ∧
    ((¬ ∃ n, Atoi u = some n ∧ n ∈ af.AdminList) → af.IsAdmin u = -1) := by
  cases hp : Atoi u with
  | none => simp [AdminForm.IsAdmin, hp]
  | some m =>
    simp only [AdminForm.IsAdmin, hp, Option.some.injEq, exists_eq_left']
    refine ⟨?_, ?_, ?_⟩
    · constructor
      · intro h0
        by_contra hm
        rw [(isAdminLoop_eq_neg_one m af.AdminList 0).2 hm] at h0
        omega
      · intro hm
        obtain ⟨k, hk, _, _⟩ := isAdminLoop_of_mem m af.AdminList 0 hm
        rw [hk]
        exact Int.ofNat_nonneg _
    · intro n hn hm
      subst hn
      obtain ⟨k, hk, hget, hfirst⟩ := isAdminLoop_of_mem m af.AdminList 0 hm
      exact ⟨k, by simpa using hk, hget, hfirst⟩
    · intro hm
      exact (isAdminLoop_eq_neg_one m af.AdminList 0).2 hm

/-- C5. `AddAdmin` on a non-integer user ID fails: when the user ID is not the
text of an integer (an optional sign, then one or more decimal digits),
`AddAdmin` returns its conversion error and `AdminList` is what it was. -/
theorem addAdmin_non_integer_fails (af : AdminForm) (u : String)
    (h : isIntegerText u = false) :
    (af.AddAdmin u).1 = some AdminError.convertSciper ∧
      (af.AddAdmin u).2.AdminList = af.AdminList := by
  cases hp : Atoi u with
  | none => simp [AdminForm.AddAdmin, hp]
  | some n =>
    have := isIntegerText_of_Atoi u n hp
    rw [h] at this
    exact absurd this (by simp)

/-- Witness of C5 on the user ID "12a". -/
theorem addAdmin_non_integer_fails_witness :
    (AdminForm.AddAdmin ⟨"form", [7]⟩ "12a").1 = some AdminError.convertSciper ∧
      (AdminForm.AddAdmin ⟨"form", [7]⟩ "12a").2.AdminList = [7] :=
  addAdmin_non_integer_fails ⟨"form", [7]⟩ "12a" (by decide)

/-- C7. The admin list is append-only under `AddAdmin`: when the user ID parses
to `n`, `AddAdmin` returns no error, the new list is the old one followed by
`n`, every earlier index holds the same admin, and `IsAdmin` of the added user
ID is non-negative afterwards. -/
theorem addAdmin_appends (af : AdminForm) (u : String) (n : Int)
    (h : Atoi u = some n) :
    (af.AddAdmin u).1 = none ∧
    (af.AddAdmin u).2.AdminList = af.AdminList ++ [n] ∧
    (af.AddAdmin u).2.FormID = af.FormID ∧
    (∀ j, j < af.AdminList.length →
      (af.AddAdmin u).2.AdminList.get? j = af.AdminList.get? j) ∧
    0 ≤ (af.AddAdmin u).2.IsAdmin u := by
  refine ⟨by simp [AdminForm.AddAdmin, h], by simp [AdminForm.AddAdmin, h],
    by simp [AdminForm.AddAdmin, h], ?_, ?_⟩
  · intro j hj
    simp [AdminForm.AddAdmin, h, List.getElem?_append_left, hj]
  · obtain ⟨k, hk, _, _⟩ :=
      isAdminLoop_of_mem n (af.AdminList ++ [n]) 0 (by simp)
    simp only [AdminForm.AddAdmin, AdminForm.IsAdmin, h, hk]
    exact Int.ofNat_nonneg _

/-- Witness of C7 on the list `[7, 3]` and the user ID "42". -/
theorem addAdmin_appends_witness :
    (AdminForm.AddAdmin ⟨"form", [7, 3]⟩ "42").1 = none ∧
    (AdminForm.AddAdmin ⟨"form", [7, 3]⟩ "42").2.AdminList = [7, 3] ++ [42] ∧
    (AdminForm.AddAdmin ⟨"form", [7, 3]⟩ "42").2.FormID = "form" ∧
    (∀ j, j < [(7 : Int), 3].length →
      (AdminForm.AddAdmin ⟨"form", [7, 3]⟩ "42").2.AdminList.get? j
        = [(7 : Int), 3].get? j) ∧
    0 ≤ (AdminForm.AddAdmin ⟨"form", [7, 3]⟩ "42").2.IsAdmin "42" :=
  addAdmin_appends ⟨"form", [7, 3]⟩ "42" 42 (by decide)

/-- C6, as amended. A user ID must be the text of an integer, of any sign: a
user ID that is not an optional sign followed by decimal digits makes
`AddAdmin` return its error and add nothing, while the decimal form of every
integer of the 64-bit `int` range, zero and the negative ones included, is
accepted and its integer is appended to `AdminList`. -/
theorem addAdmin_integer_of_any_sign (af : AdminForm) :
    (∀ u, isIntegerText u = false →
      (af.AddAdmin u).1 = some AdminError.convertSciper ∧
      (af.AddAdmin u).2.AdminList = af.AdminList) ∧
    (∀ z : Int, -2 ^ 63 ≤ z → z < 2 ^ 63 →
      (af.AddAdmin (toString z)).1 = none ∧
      (af.AddAdmin (toString z)).2.AdminList = af.AdminList ++ [z]) := by
  constructor
  · intro u h
    cases hp : Atoi u with
    | none => simp [AdminForm.AddAdmin, hp]
    | some n =>
      have := isIntegerText_of_Atoi u n hp
      rw [h] at this
      exact absurd this (by simp)
  · intro z hlo hhi
    simp [AdminForm.AddAdmin, Atoi_toString z hlo hhi]

/-- Witness of C6, as amended: the user ID "x1" is refused and the decimal
form of -5 is accepted. -/
theorem addAdmin_integer_of_any_sign_witness :
    ((AdminForm.AddAdmin ⟨"form", [7]⟩ "x1").1 = some AdminError.convertSciper ∧
      (AdminForm.AddAdmin ⟨"form", [7]⟩ "x1").2.AdminList = [7]) ∧
    ((AdminForm.AddAdmin ⟨"form", [7]⟩ (toString (-5 : Int))).1 = none ∧
      (AdminForm.AddAdmin ⟨"form", [7]⟩ (toString (-5 : Int))).2.AdminList
        = [7] ++ [-5]) :=
  ⟨(addAdmin_integer_of_any_sign ⟨"form", [7]⟩).1 "x1" (by decide),
   (addAdmin_integer_of_any_sign ⟨"form", [7]⟩).2 (-5) (by decide) (by decide)⟩

/-- C6, the claim as written fails: "0" and "-5" are not the decimal form of
an integer >= 1, yet `AddAdmin` returns no error on them and appends 0 and -5
to `AdminList`. -/
theorem addAdmin_positive_only_counterexample :
    (¬ ∃ z : Int, 1 ≤ z ∧ toString z = "0") ∧
    AdminForm.AddAdmin ⟨"form", [7]⟩ "0" = (none, ⟨"form", [7, 0]⟩) ∧
    (¬ ∃ z : Int, 1 ≤ z ∧ toString z = "-5") ∧
    AdminForm.AddAdmin ⟨"form", [7]⟩ "-5" = (none, ⟨"form", [7, -5]⟩) := by
  refine ⟨?_, by decide, ?_, by decide⟩
  · rintro ⟨z, hz, hs⟩
    have hp := parseDigits_toString_pos z hz
    rw [hs] at hp
    have h0 : parseDigits "0".data 0 = some 0 := by decide
    rw [h0] at hp
    have : (0 : Nat) = z.toNat := Option.some.inj hp
    omega
  · rintro ⟨z, hz, hs⟩
    have hp := parseDigits_toString_pos z hz
    rw [hs] at hp
    have h0 : parseDigits "-5".data 0 = none := by decide
    rw [h0] at hp
    exact absurd hp (by simp)

/-! ## Properties of the election status -/

/-- C8. State monotonicity. The six status codes are 0, 1, 2, 3, 5, 6, all
distinct; every transition of the lifecycle table leads to a status whose code
is at least the code of the status it leaves, and so does every sequence of
valid events; from `Canceled` every transition and every sequence of valid
events ends in `Canceled`. -/
theorem status_monotone :
    statuses = [0, 1, 2, 3, 5, 6] ∧ statuses.Nodup ∧
    (∀ s e t, step s e = some t → s ≤ t) ∧
    (∀ s es t, run s es = some t → s ≤ t) ∧
    (∀ e t, step Canceled e = some t → t = Canceled) ∧
    (∀ es t, run Canceled es = some t → t = Canceled) :=
  ⟨rfl, by decide, step_le, run_le, step_canceled, run_canceled⟩

/-- Witness of C8 on the whole lifecycle, from `Initial` to `ResultAvailable`,
and on a cancelled election. -/
theorem status_monotone_witness :
    run Initial [Event.Open, Event.CastVote, Event.CastVote, Event.Close,
        Event.Shuffle, Event.Shuffle, Event.PostPubshares, Event.CombineShares]
      = some ResultAvailable ∧
    Initial ≤ ResultAvailable ∧
    run Canceled [Event.Cancel, Event.Cancel] = some Canceled :=
  ⟨by decide,
   status_monotone.2.2.2.1 Initial [Event.Open, Event.CastVote, Event.CastVote,
     Event.Close, Event.Shuffle, Event.Shuffle, Event.PostPubshares,
     Event.CombineShares] ResultAvailable (by decide),
   by decide⟩

/-! ## Properties of the configuration -/

/-- C9. `MaxBallotSize` returns the sum, over the subjects of the scaffold, of
each subject's `MaxEncodedSize`, in the arithmetic of Go's `int`: it is 0 for
an empty scaffold, additive over the concatenation of scaffolds, and it is the
exact sum whenever the sizes are not negative and their total is below 2^63. -/
theorem maxBallotSize_sum {Subject : Type} (MaxEncodedSize : Subject → Int)
    (title : String) (scaffold more : List Subject) :
    Configuration.MaxBallotSize MaxEncodedSize ⟨title, scaffold⟩
      = wrapInt ((scaffold.map MaxEncodedSize).sum) ∧
    Configuration.MaxBallotSize MaxEncodedSize ⟨title, []⟩ = 0 ∧
    Configuration.MaxBallotSize MaxEncodedSize ⟨title, scaffold ++ more⟩
      = wrapInt (Configuration.MaxBallotSize MaxEncodedSize ⟨title, scaffold⟩
          + Configuration.MaxBallotSize MaxEncodedSize ⟨title, more⟩) ∧
    ((∀ x ∈ scaffold ++ more, 0 ≤ MaxEncodedSize x) →
      ((scaffold ++ more).map MaxEncodedSize).sum < 2 ^ 63 →
      Configuration.MaxBallotSize MaxEncodedSize ⟨title, scaffold⟩
        = (scaffold.map MaxEncodedSize).sum ∧
      Configuration.MaxBallotSize MaxEncodedSize ⟨title, scaffold ++ more⟩
        = Configuration.MaxBallotSize MaxEncodedSize ⟨title, scaffold⟩
          + Configuration.MaxBallotSize MaxEncodedSize ⟨title, more⟩) := by
  refine ⟨maxBallotSize_eq _ _, rfl, ?_, ?_⟩
  · rw [maxBallotSize_eq, maxBallotSize_eq, maxBallotSize_eq]
    simp only [List.map_append, List.sum_append]
    rw [wrapInt_add_left, wrapInt_add_right]
  · intro hpos hsum
    have nonneg : ∀ l : List Subject, (∀ x ∈ l, 0 ≤ MaxEncodedSize x) →
        0 ≤ (l.map MaxEncodedSize).sum := by
      intro l hl
      apply List.sum_nonneg
      intro y hy
      obtain ⟨x, hx, rfl⟩ := List.mem_map.1 hy
      exact hl x hx
    have h1 := nonneg scaffold (fun x hx => hpos x (by simp [hx]))
    have h2 := nonneg more (fun x hx => hpos x (by simp [hx]))
    simp only [List.map_append, List.sum_append] at hsum
    rw [maxBallotSize_eq, maxBallotSize_eq, maxBallotSize_eq]
    simp only [List.map_append, List.sum_append]
    rw [wrapInt_of_range _ (by omega) (by omega),
      wrapInt_of_range _ (by omega) (by omega),
      wrapInt_of_range _ (by omega) (by omega)]
    exact ⟨rfl, rfl⟩

/-- Witness of C9 on two scaffolds of the model subjects. -/
theorem maxBallotSize_sum_witness :
    Configuration.MaxBallotSize SubjectModel.MaxSize
        ⟨"poll", [⟨["q1"], 10⟩, ⟨["q2"], 32⟩]⟩ = [(10 : Int), 32].sum ∧
    Configuration.MaxBallotSize SubjectModel.MaxSize
        ⟨"poll", [⟨["q1"], 10⟩, ⟨["q2"], 32⟩] ++ [⟨["q3"], 5⟩]⟩
      = Configuration.MaxBallotSize SubjectModel.MaxSize
          ⟨"poll", [⟨["q1"], 10⟩, ⟨["q2"], 32⟩]⟩
        + Configuration.MaxBallotSize SubjectModel.MaxSize
          ⟨"poll", [⟨["q3"], 5⟩]⟩ :=
  (maxBallotSize_sum SubjectModel.MaxSize "poll"
    [⟨["q1"], 10⟩, ⟨["q2"], 32⟩] [⟨["q3"], 5⟩]).2.2.2 (by decide) (by decide)

/-- C10. `Configuration.IsValid` returns true only when every question ID is
unique across the whole scaffold. The subjects are checked in scaffold order
against one set shared by all of them; `Subject.IsValid` is taken with the
contract the spec gives it: a subject passes only if its question IDs are
distinct and new to the set, and it adds them to the set. Then a valid
configuration has pairwise distinct question IDs over all its subjects; the
result is false as soon as one subject fails against the set left by the
subjects before it, whatever follows; an ID repeated in two different subjects
is rejected; the empty scaffold is valid. -/
theorem configuration_isValid_unique {Subject : Type}
    (questionIDs : Subject → List ID)
    (subjectIsValid : Subject → IDSet → Bool × IDSet)
    (hcheck : ∀ s seen, (subjectIsValid s seen).1 = true →
      (questionIDs s).Nodup ∧ ∀ q ∈ questionIDs s, q ∉ seen)
    (hgrow : ∀ s seen, (subjectIsValid s seen).1 = true →
      ∀ q, q ∈ seen ∨ q ∈ questionIDs s → q ∈ (subjectIsValid s seen).2)
    (c : Configuration Subject) :
    (c.IsValid subjectIsValid = true →
      (c.Scaffold.flatMap questionIDs).Nodup) ∧
    (∀ pre s post, c.Scaffold = pre ++ s :: post →
      (subjectIsValid s (uniqueIDsAfter subjectIsValid pre [])).1 = false →
      c.IsValid subjectIsValid = false) ∧
    (∀ pre s mid s2 post q, c.Scaffold = pre ++ s :: (mid ++ s2 :: post) →
      q ∈ questionIDs s → q ∈ questionIDs s2 →
      c.IsValid subjectIsValid = false) ∧
    Configuration.IsValid subjectIsValid ⟨c.MainTitle, []⟩ = true := by
  have hmain : c.IsValid subjectIsValid = true →
      (c.Scaffold.flatMap questionIDs).Nodup := fun h =>
    (isValidLoop_nodup questionIDs subjectIsValid hcheck hgrow c.Scaffold [] h).1
  refine ⟨hmain, ?_, ?_, rfl⟩
  · intro pre s post hsc hfail
    unfold Configuration.IsValid
    rw [hsc, isValidLoop_append, isValidLoop_cons, hfail]
    simp
  · intro pre s mid s2 post q hsc hq1 hq2
    cases hv : c.IsValid subjectIsValid with
    | false => rfl
    | true =>
      have hn := hmain hv
      rw [hsc] at hn
      simp only [List.flatMap_append, List.flatMap_cons] at hn
      have h1 := (List.nodup_append.1 hn).2.1
      have h2 := (List.nodup_append.1 h1).2.2
      exact absurd (List.mem_append_right _ (List.mem_append_left _ hq2))
        (h2 hq1)

/-- Witness of C10 on the model subjects: a scaffold of two subjects with
three distinct question IDs is valid, and one that repeats "q1" in its two
subjects is rejected. -/
theorem configuration_isValid_unique_witness :
    Configuration.IsValid SubjectModel.IsValid
        ⟨"poll", [⟨["q1", "q2"], 10⟩, ⟨["q3"], 5⟩]⟩ = true ∧
    (List.flatMap [(⟨["q1", "q2"], 10⟩ : SubjectModel), ⟨["q3"], 5⟩]
        SubjectModel.QuestionIDs).Nodup ∧
    Configuration.IsValid SubjectModel.IsValid
        ⟨"poll", [⟨["q1", "q2"], 10⟩, ⟨["q1"], 5⟩]⟩ = false :=
  ⟨by decide,
   (configuration_isValid_unique SubjectModel.QuestionIDs SubjectModel.IsValid
      (fun s seen h =>
        ⟨(checkQuestionIDs_sound s.QuestionIDs seen h).1,
         (checkQuestionIDs_sound s.QuestionIDs seen h).2.1⟩)
      (fun s seen h => (checkQuestionIDs_sound s.QuestionIDs seen h).2.2)
      ⟨"poll", [⟨["q1", "q2"], 10⟩, ⟨["q3"], 5⟩]⟩).1 (by decide),
   (configuration_isValid_unique SubjectModel.QuestionIDs SubjectModel.IsValid
      (fun s seen h =>
        ⟨(checkQuestionIDs_sound s.QuestionIDs seen h).1,
         (checkQuestionIDs_sound s.QuestionIDs seen h).2.1⟩)
      (fun s seen h => (checkQuestionIDs_sound s.QuestionIDs seen h).2.2)
      ⟨"poll", [⟨["q1", "q2"], 10⟩, ⟨["q1"], 5⟩]⟩).2.2.1
        [] ⟨["q1", "q2"], 10⟩ [] ⟨["q1"], 5⟩ [] "q1" rfl (by decide) (by decide)⟩

/-! ## Reading, deleting and the invariant of the bulletin board -/

/-- C16. `GetBallotFromUser` returns the ballot associated to a user and
reports not-found otherwise. On a board whose two lists have the same length:
when `u` is listed, the call returns `(Ballots[i], true)` for the first index
`i` with `UserIDs[i] = u`; it returns the empty ballot and `false` exactly when
`u` is not listed; and the board is what it was. -/
theorem getBallotFromUser_first_index (p : PublicBulletinBoard) (u : String)
    (hlen : p.UserIDs.length = p.Ballots.length) :
    (u ∈ p.UserIDs → ∃ i b, p.UserIDs.get? i = some u ∧
      (∀ j, j < i → p.UserIDs.get? j ≠ some u) ∧
      p.Ballots.get? i = some b ∧ p.GetBallotFromUser u = some (b, true)) ∧
    (p.GetBallotFromUser u = some ([], false) ↔ u ∉ p.UserIDs) ∧
    p.afterGetBallotFromUser u = some p := by
  cases hr : rangeUserIDs u p.UserIDs 0 with
  | some i =>
    obtain ⟨hi, hget, hfirst⟩ := rangeUserIDs_some u p.UserIDs i hr
    have hi2 : i < p.Ballots.length := hlen ▸ hi
    have hmem : u ∈ p.UserIDs := List.get?_mem hget
    have hres : p.GetBallotFromUser u = some (p.Ballots.get ⟨i, hi2⟩, true) := by
      simp [PublicBulletinBoard.GetBallotFromUser, hr,
        List.getElem?_eq_getElem hi2, encryptedBallot_copy_eq]
    refine ⟨fun _ => ⟨i, p.Ballots.get ⟨i, hi2⟩, hget, hfirst,
      by simp [List.getElem?_eq_getElem hi2], hres⟩, ?_, ?_⟩
    · rw [hres]
      simp [hmem]
    · simp [PublicBulletinBoard.afterGetBallotFromUser, hres]
  | none =>
    have hnot : u ∉ p.UserIDs := (rangeUserIDs_none u p.UserIDs 0).1 hr
    have hres := getBallotFromUser_not_mem p u hnot
    exact ⟨fun h => absurd h hnot, by simp [hres, hnot],
      by simp [PublicBulletinBoard.afterGetBallotFromUser, hres]⟩

/-- Witness of C16 on a board with two voters, read for the second. -/
theorem getBallotFromUser_first_index_witness :
    PublicBulletinBoard.GetBallotFromUser
        ⟨["alice", "bob"], [[⟨[1], [2]⟩], [⟨[5], [6]⟩]]⟩ "carol"
      = some ([], false) ↔ "carol" ∉ ["alice", "bob"] :=
  (getBallotFromUser_first_index
    ⟨["alice", "bob"], [[⟨[1], [2]⟩], [⟨[5], [6]⟩]]⟩ "carol" rfl).2.1

/-- C17. `DeleteUser` removes a user and its ballot if found. On a board with
no user listed twice and two lists of the same length, the call returns
normally; it returns true exactly when `u` is listed; when it returns true,
`GetBallotFromUser(u)` afterwards reports not found, both lists are one
shorter, every other user reads the same ballot as before and the users left
are the old ones in the old order; when it returns false the board is
unchanged. -/
theorem deleteUser_removes (p : PublicBulletinBoard) (u : String)
    (hlen : p.UserIDs.length = p.Ballots.length) (hnd : p.UserIDs.Nodup) :
    ∃ r q, p.DeleteUser u = some (r, q) ∧
      (r = true ↔ u ∈ p.UserIDs) ∧
      (r = true →
        q.GetBallotFromUser u = some ([], false) ∧
        q.UserIDs.length + 1 = p.UserIDs.length ∧
        q.Ballots.length + 1 = p.Ballots.length ∧
        (∀ v, v ≠ u → q.GetBallotFromUser v = p.GetBallotFromUser v) ∧
        q.UserIDs = p.UserIDs.filter (fun v => decide (v ≠ u))) ∧
      (r = false → q = p) := by
  obtain ⟨r, q, hq, hr, hfilter, hlens, hget, hfalse⟩ :=
    deleteUser_aux p.UserIDs p.Ballots u hlen hnd
  refine ⟨r, q, hq, hr, ?_, hfalse⟩
  intro hrt
  refine ⟨?_, (hlens hrt).1, (hlens hrt).2, hget, hfilter⟩
  apply getBallotFromUser_not_mem
  rw [hfilter]
  simp

/-- Witness of C17: deleting the second of three voters. -/
theorem deleteUser_removes_witness :
    ∃ r q, PublicBulletinBoard.DeleteUser
          ⟨["alice", "bob", "carol"], [[⟨[1], [2]⟩], [⟨[3], [4]⟩], [⟨[5], [6]⟩]]⟩
          "bob" = some (r, q) ∧
      (r = true ↔ "bob" ∈ ["alice", "bob", "carol"]) ∧
      (r = true →
        q.GetBallotFromUser "bob" = some ([], false) ∧
        q.UserIDs.length + 1 = ["alice", "bob", "carol"].length ∧
        q.Ballots.length + 1
          = [[(⟨[1], [2]⟩ : Ciphertext)], [⟨[3], [4]⟩], [⟨[5], [6]⟩]].length ∧
        (∀ v, v ≠ "bob" → q.GetBallotFromUser v
          = PublicBulletinBoard.GetBallotFromUser
              ⟨["alice", "bob", "carol"],
                [[⟨[1], [2]⟩], [⟨[3], [4]⟩], [⟨[5], [6]⟩]]⟩ v) ∧
        q.UserIDs
          = ["alice", "bob", "carol"].filter (fun v => decide (v ≠ "bob"))) ∧
      (r = false → q = ⟨["alice", "bob", "carol"],
        [[⟨[1], [2]⟩], [⟨[3], [4]⟩], [⟨[5], [6]⟩]]⟩) :=
  deleteUser_removes
    ⟨["alice", "bob", "carol"], [[⟨[1], [2]⟩], [⟨[3], [4]⟩], [⟨[5], [6]⟩]]⟩
    "bob" rfl (by decide)

/-- C19. Bulletin-board invariant. Every sequence of `CastVote` and
`DeleteUser` calls runs from the empty board without a panic, and the board it
reaches has two lists of the same length and no user ID listed twice; on that
board `CastVote`, `DeleteUser` and `GetBallotFromUser` return normally for
every argument, so none of them indexes `Ballots` out of range. -/
theorem board_invariant (ops : List BoardOp) :
    ∃ q, PublicBulletinBoard.calls ⟨[], []⟩ ops = some q ∧
      q.UserIDs.length = q.Ballots.length ∧ q.UserIDs.Nodup ∧
      (∀ u b, ∃ q2, q.CastVote u b = some q2) ∧
      (∀ u, ∃ r, q.DeleteUser u = some r) ∧
      (∀ u, ∃ r, q.GetBallotFromUser u = some r) := by
  obtain ⟨q, hq, hlen, hnd⟩ :=
    calls_keep ops ⟨[], []⟩ rfl List.nodup_nil
  refine ⟨q, hq, hlen, hnd, ?_, ?_, ?_⟩
  · intro u b
    obtain ⟨q2, h2, _⟩ := castVote_keeps q u b hlen hnd
    exact ⟨q2, h2⟩
  · intro u
    obtain ⟨r, q2, h2, _⟩ := deleteUser_keeps q u hlen hnd
    exact ⟨(r, q2), h2⟩
  · intro u
    exact getBallotFromUser_total q u hlen

/-- Witness of C19 on a run of four calls: the board reached has one voter
and the voter's last ballot. -/
theorem board_invariant_witness :
    PublicBulletinBoard.calls ⟨[], []⟩
        [BoardOp.CastVote "alice" [⟨[1], [2]⟩], BoardOp.CastVote "bob" [],
          BoardOp.DeleteUser "alice", BoardOp.CastVote "bob" [⟨[3], [4]⟩]]
      = some ⟨["bob"], [[⟨[3], [4]⟩]]⟩ ∧
    ∃ q, PublicBulletinBoard.calls ⟨[], []⟩
        [BoardOp.CastVote "alice" [⟨[1], [2]⟩], BoardOp.CastVote "bob" [],
          BoardOp.DeleteUser "alice", BoardOp.CastVote "bob" [⟨[3], [4]⟩]]
        = some q ∧
      q.UserIDs.length = q.Ballots.length ∧ q.UserIDs.Nodup ∧
      (∀ u b, ∃ q2, q.CastVote u b = some q2) ∧
      (∀ u, ∃ r, q.DeleteUser u = some r) ∧
      (∀ u, ∃ r, q.GetBallotFromUser u = some r) :=
  ⟨by decide, board_invariant _⟩

/-! ## Properties of the semi-random stream -/

/-- C11. `NewSemiRandomStream` uses only the first 8 bytes of the seed: two
seeds with the same first 8 bytes get the same result, an error for both or
the same stream (the same stored seed and the same integer for the random
source); a stream that is returned stores the first 8 bytes of the seed. -/
theorem newSemiRandomStream_first_eight (seed1 seed2 : List Byte)
    (h : seed1.take 8 = seed2.take 8) :
    NewSemiRandomStream seed1 = NewSemiRandomStream seed2 ∧
    ((NewSemiRandomStream seed1).2 = none →
      (NewSemiRandomStream seed1).1.seed = seed1.take 8) := by
  rw [newSemiRandomStream_eq, newSemiRandomStream_eq, h]
  refine ⟨rfl, ?_⟩
  split
  · simp
  · simp

/-- Witness of C11 on two seeds of 9 and 10 bytes with the same first 8. -/
theorem newSemiRandomStream_first_eight_witness :
    NewSemiRandomStream [0x81, 0x02, 3, 4, 5, 6, 7, 8, 9]
      = NewSemiRandomStream [0x81, 0x02, 3, 4, 5, 6, 7, 8, 200, 201] ∧
    ((NewSemiRandomStream [0x81, 0x02, 3, 4, 5, 6, 7, 8, 9]).2 = none →
      (NewSemiRandomStream [0x81, 0x02, 3, 4, 5, 6, 7, 8, 9]).1.seed
        = List.take 8 [0x81, 0x02, 3, 4, 5, 6, 7, 8, 9]) :=
  newSemiRandomStream_first_eight [0x81, 0x02, 3, 4, 5, 6, 7, 8, 9]
    [0x81, 0x02, 3, 4, 5, 6, 7, 8, 200, 201] rfl

/-- C12, as amended. For a seed of exactly 8 bytes of which at least one is
below 0x80, `NewSemiRandomStream` returns no error and a stream that stores the
8 bytes and is seeded with their varint; a seed of 8 bytes that all have the
top bit set is refused with the error "the seed has a wrong size (too
small)". -/
theorem newSemiRandomStream_eight_bytes (seed : List Byte)
    (hlen : seed.length = 8) :
    ((∃ b ∈ seed, b.val < 128) →
      (NewSemiRandomStream seed).2 = none ∧
      (NewSemiRandomStream seed).1.seed = seed ∧
      (NewSemiRandomStream seed).1.stream = some (Varint seed).1) ∧
    ((∀ b ∈ seed, 128 ≤ b.val) →
      NewSemiRandomStream seed = (⟨[], none⟩, some StreamError.wrongSize)) := by
  constructor
  · intro h
    rw [newSemiRandomStream_ok seed (by omega) h]
    exact ⟨rfl, rfl, rfl⟩
  · intro h
    exact newSemiRandomStream_error seed (by omega) h

/-- Witness of C12, as amended, on the seed 1, 2, ..., 8. -/
theorem newSemiRandomStream_eight_bytes_witness :
    (NewSemiRandomStream [1, 2, 3, 4, 5, 6, 7, 8]).2 = none ∧
    (NewSemiRandomStream [1, 2, 3, 4, 5, 6, 7, 8]).1.seed
      = [1, 2, 3, 4, 5, 6, 7, 8] ∧
    (NewSemiRandomStream [1, 2, 3, 4, 5, 6, 7, 8]).1.stream
      = some (Varint [1, 2, 3, 4, 5, 6, 7, 8]).1 :=
  (newSemiRandomStream_eight_bytes [1, 2, 3, 4, 5, 6, 7, 8] rfl).1
    ⟨1, by decide, by decide⟩

/-- C12, the claim as written fails: the seed of 8 bytes 0xff is refused with
the error "the seed has a wrong size (too small)" and no stream is
returned. -/
theorem newSemiRandomStream_eight_bytes_counterexample :
    [(0xff : Byte), 0xff, 0xff, 0xff, 0xff, 0xff, 0xff, 0xff].length = 8 ∧
    NewSemiRandomStream [0xff, 0xff, 0xff, 0xff, 0xff, 0xff, 0xff, 0xff]
      = (⟨[], none⟩, some StreamError.wrongSize) := by
  decide

/-! ## Properties of the ElGamal pairs -/

/-- C18. `EncryptedBallots.GetElGPairs` returns the ElGamal pairs column by
column. For ballots that all have `L` chunks and whose ciphertexts decode to
points: on the empty list the result is the error "there are no ballots"; on a
non-empty list of `k` ballots the call returns, without a panic, `X` and `Y`
with exactly `L` columns of `k` points each, and entry `b` of column `c` of `X`
and of `Y` is the K point and the C point of chunk `c` of ballot `b`. -/
theorem getElGPairs_columns {Point : Type}
    (GetPoints : Ciphertext → Option (Point × Point)) (L : Nat)
    (B : EncryptedBallots) (hL : ∀ b ∈ B, b.length = L)
    (hdec : ∀ b ∈ B, ∀ ct ∈ b, ∃ k c, GetPoints ct = some (k, c)) :
    (B = [] → EncryptedBallots.GetElGPairs GetPoints B
      = some (Except.error BallotError.noBallots)) ∧
    (B ≠ [] → ∃ X Y,
      EncryptedBallots.GetElGPairs GetPoints B = some (Except.ok (X, Y)) ∧
      X.length = L ∧ Y.length = L ∧
      (∀ col ∈ X, col.length = B.length) ∧
      (∀ col ∈ Y, col.length = B.length) ∧
      ∀ b c ballot ct k cp, B.get? b = some ballot → ballot.get? c = some ct →
        GetPoints ct = some (k, cp) →
        (X.get? c).bind (fun col => col.get? b) = some k ∧
        (Y.get? c).bind (fun col => col.get? b) = some cp) := by
  constructor
  · intro h
    rw [h]
    rfl
  · intro hne
    have hkL := pointsK_rows_length GetPoints L B hL hdec
    have hcL := pointsC_rows_length GetPoints L B hL hdec
    refine ⟨_, _, getElGPairs_eq GetPoints L B hne hL hdec,
      columnsOf_length L _ hkL, columnsOf_length L _ hcL, ?_, ?_, ?_⟩
    · intro col hcol
      rw [columnsOf_col_length L _ col hcol, List.length_map]
    · intro col hcol
      rw [columnsOf_col_length L _ col hcol, List.length_map]
    · intro b c ballot ct k cp hb hc hg
      have hmem : ballot ∈ B := List.get?_mem hb
      obtain ⟨_, _, _, hget⟩ := ballot_getElGPairs_ok GetPoints ballot (hdec ballot hmem)
      obtain ⟨hk, hcp⟩ := hget c ct k cp hc hg
      have hb2 : B[b]? = some ballot := by simpa using hb
      constructor
      · exact columnsOf_get L _ hkL b c (pointsK GetPoints ballot) k
          (by simp [hb2]) hk
      · exact columnsOf_get L _ hcL b c (pointsC GetPoints ballot) cp
          (by simp [hb2]) hcp

/-- Witness of C18 on two ballots of two chunks, a point being the bytes that
encode it. -/
theorem getElGPairs_columns_witness :
    EncryptedBallots.GetElGPairs (fun ct => some (ct.K, ct.C))
        [[⟨[1], [2]⟩, ⟨[3], [4]⟩], [⟨[5], [6]⟩, ⟨[7], [8]⟩]]
      = some (Except.ok ([[[1], [5]], [[3], [7]]], [[[2], [6]], [[4], [8]]])) ∧
    ∃ X Y, EncryptedBallots.GetElGPairs
          (fun ct => (some (ct.K, ct.C) : Option (List Byte × List Byte)))
          [[⟨[1], [2]⟩, ⟨[3], [4]⟩], [⟨[5], [6]⟩, ⟨[7], [8]⟩]]
        = some (Except.ok (X, Y)) ∧
      X.length = 2 ∧ Y.length = 2 ∧
      (∀ col ∈ X, col.length = 2) ∧ (∀ col ∈ Y, col.length = 2) := by
  refine ⟨rfl, ?_⟩
  obtain ⟨X, Y, h, hX, hY, hcX, hcY, _⟩ :=
    (getElGPairs_columns (fun ct => (some (ct.K, ct.C) : Option (List Byte × List Byte)))
      2 [[⟨[1], [2]⟩, ⟨[3], [4]⟩], [⟨[5], [6]⟩, ⟨[7], [8]⟩]] (by decide)
      (fun _ _ ct _ => ⟨ct.K, ct.C, rfl⟩)).2 (by decide)
  exact ⟨X, Y, h, hX, hY, hcX, hcY⟩

/-- C20. Transposition round trip. For a non-empty list `B` of ballots that
all have the same length `L >= 1` and whose ciphertexts decode to points, with
`FromPoints` giving back the ciphertext whose points `GetPoints` returned:
`B.GetElGPairs()` returns `X` and `Y` without error, and `InitFromElGPairs`
applied to them returns no error and leaves exactly `B`, whatever the receiver
held before. -/
theorem initFromElGPairs_roundtrip {Point : Type}
    (GetPoints : Ciphertext → Option (Point × Point))
    (FromPoints : Point → Point → Option Ciphertext)
    (hinv : ∀ ct k c, GetPoints ct = some (k, c) → FromPoints k c = some ct)
    (L : Nat) (hLpos : 1 ≤ L) (B : EncryptedBallots) (hne : B ≠ [])
    (hL : ∀ b ∈ B, b.length = L)
    (hdec : ∀ b ∈ B, ∀ ct ∈ b, ∃ k c, GetPoints ct = some (k, c))
    (b0 : EncryptedBallots) :
    ∃ X Y, EncryptedBallots.GetElGPairs GetPoints B = some (Except.ok (X, Y)) ∧
      EncryptedBallots.InitFromElGPairs FromPoints b0 X Y = some (none, B) := by
  have hkL := pointsK_rows_length GetPoints L B hL hdec
  have hcL := pointsC_rows_length GetPoints L B hL hdec
  refine ⟨_, _, getElGPairs_eq GetPoints L B hne hL hdec, ?_⟩
  have hX := columnsOf_length L _ hkL
  have hY := columnsOf_length L _ hcL
  have hloop := initFromElGPairsLoop_columns GetPoints FromPoints hinv L B hL hdec
  have hxy : ¬ (columnsOf L (B.map (pointsK GetPoints))).length
      ≠ (columnsOf L (B.map (pointsC GetPoints))).length := by
    rw [hX, hY]
    simp
  unfold EncryptedBallots.InitFromElGPairs
  rw [if_neg hxy]
  cases hc : columnsOf L (B.map (pointsK GetPoints)) with
  | nil =>
    rw [hc] at hX
    simp at hX
    omega
  | cons X0 rest =>
    have h0 : X0.length = B.length := by
      rw [columnsOf_col_length L (B.map (pointsK GetPoints)) X0 (by simp [hc]),
        List.length_map]
    simp only [h0]
    rw [← hc]
    exact hloop
/-- Witness of C20 on two ballots of two chunks, a point being the bytes that
encode it. -/
theorem initFromElGPairs_roundtrip_witness :
    ∃ X Y, EncryptedBallots.GetElGPairs
          (fun ct => (some (ct.K, ct.C) : Option (List Byte × List Byte)))
          [[⟨[1], [2]⟩, ⟨[3], [4]⟩], [⟨[5], [6]⟩, ⟨[7], [8]⟩]]
        = some (Except.ok (X, Y)) ∧
      EncryptedBallots.InitFromElGPairs (fun k c => some ⟨k, c⟩) [] X Y
        = some (none, [[⟨[1], [2]⟩, ⟨[3], [4]⟩], [⟨[5], [6]⟩, ⟨[7], [8]⟩]]) :=
  initFromElGPairs_roundtrip
    (fun ct => (some (ct.K, ct.C) : Option (List Byte × List Byte)))
    (fun k c => some ⟨k, c⟩)
    (fun ct k c h => by
      cases ct
      simp only [Option.some.injEq, Prod.mk.injEq] at h
      rw [← h.1, ← h.2])
    2 (by decide) [[⟨[1], [2]⟩, ⟨[3], [4]⟩], [⟨[5], [6]⟩, ⟨[7], [8]⟩]]
    (by decide) (by decide) (fun _ _ ct _ => ⟨ct.K, ct.C, rfl⟩) []

/-! ## Properties of the DKG actor -/

/-- C13. `Encrypt` consumes at most 29 bytes. For every message and every
collective key `H = x·G`, whatever the ephemeral scalar: the remainder is the
message with its first 29 bytes dropped, empty when the message has at most 29
bytes and 16 bytes long for a message of 45 bytes; and the data of the point
`C - x·K` is the first 29 bytes of the message, `min(29, len(msg))` bytes in
all. The embedding is any one whose `data` gives back chunks of at most 29
bytes. -/
theorem encrypt_consumes_29 {F P : Type} [CommRing F] [AddCommGroup P]
    [Module F P] (G : P) (embed : List Byte → P) (data : P → List Byte)
    (hdata : ∀ chunk, chunk.length ≤ 29 → data (embed chunk) = chunk)
    (x r : F) (msg : List Byte) :
    (Encrypt G embed (x • G) r msg).2.2 = msg.drop 29 ∧
    (msg.length ≤ 29 → (Encrypt G embed (x • G) r msg).2.2 = []) ∧
    (msg.length = 45 → (Encrypt G embed (x • G) r msg).2.2.length = 16) ∧
    data ((Encrypt G embed (x • G) r msg).2.1
        - x • (Encrypt G embed (x • G) r msg).1) = msg.take 29 ∧
    (msg.take 29).length = min 29 msg.length := by
  refine ⟨rfl, ?_, ?_, ?_, by simp⟩
  · intro h
    simp [Encrypt, List.drop_eq_nil_of_le h]
  · intro h
    simp [Encrypt, h]
  · have e : embed (msg.take 29) + r • x • G - x • r • G
        = embed (msg.take 29) := by
      rw [smul_smul, smul_smul, mul_comm r x]
      abel
    simp only [Encrypt, e]
    exact hdata _ (by simp)

/-- Witness of C13 in the group of the integers with base point 1, secret 7,
ephemeral scalar 3 and a message of 45 bytes. -/
theorem encrypt_consumes_29_witness :
    (Encrypt (1 : Int) toyEmbed ((7 : Int) • (1 : Int)) (3 : Int)
        (List.replicate 45 65)).2.2.length = 16 ∧
    toyData ((Encrypt (1 : Int) toyEmbed ((7 : Int) • (1 : Int)) (3 : Int)
          (List.replicate 45 65)).2.1
        - (7 : Int) • (Encrypt (1 : Int) toyEmbed ((7 : Int) • (1 : Int))
          (3 : Int) (List.replicate 45 65)).1)
      = List.take 29 (List.replicate 45 65) :=
  ⟨(encrypt_consumes_29 (1 : Int) toyEmbed toyData toyData_toyEmbed
      (7 : Int) (3 : Int) (List.replicate 45 65)).2.2.1 (by decide),
   (encrypt_consumes_29 (1 : Int) toyEmbed toyData toyData_toyEmbed
      (7 : Int) (3 : Int) (List.replicate 45 65)).2.2.2.1⟩

/-- C14. Persistence round trip. When the encodings of scalars, points and
addresses read back what they wrote, `UnmarshalJSON` applied to
`MarshalJSON(hd)` succeeds and yields `hd` itself, with the same PrivKey,
PubKey, PrivShare and StartRes (distKey and participants), for every handler
data: the fresh one of `NewHandlerData` as well as one that holds a
distributed key, a participant list and a private share. -/
theorem handlerData_marshal_unmarshal {Scalar Point Address : Type}
    (codec : Codec Scalar Point Address)
    (hscalar : ∀ x, codec.unmarshalScalar (codec.marshalScalar x) = some x)
    (hpoint : ∀ p, codec.unmarshalPoint (codec.marshalPoint p) = some p)
    (haddr : ∀ a, codec.unmarshalAddress (codec.marshalAddress a) = some a) :
    (∀ hd : HandlerData Scalar Point Address,
      HandlerData.UnmarshalJSON codec (HandlerData.MarshalJSON codec hd)
        = some hd) ∧
    (∀ privKey pubKey,
      HandlerData.UnmarshalJSON codec
          (HandlerData.MarshalJSON codec (NewHandlerData privKey pubKey))
        = some (NewHandlerData privKey pubKey)) ∧
    (∀ s : state Point Address,
      state.UnmarshalJSON codec (state.MarshalJSON codec s) = some s) :=
  ⟨handlerData_roundtrip codec hscalar hpoint haddr,
   fun privKey pubKey =>
     handlerData_roundtrip codec hscalar hpoint haddr
       (NewHandlerData privKey pubKey),
   state_roundtrip codec hpoint haddr⟩

/-- Witness of C14 with byte strings for scalars, points and addresses, on a
handler data that holds a key, two participants and a share. -/
theorem handlerData_marshal_unmarshal_witness :
    HandlerData.UnmarshalJSON (Codec.mk id some id some id some)
        (HandlerData.MarshalJSON (Codec.mk id some id some id some)
          (⟨⟨some [1, 2], some [[3], [4]]⟩, some ⟨1, [5]⟩, [6], [7]⟩ :
            HandlerData (List Byte) (List Byte) (List Byte)))
      = some ⟨⟨some [1, 2], some [[3], [4]]⟩, some ⟨1, [5]⟩, [6], [7]⟩ :=
  (handlerData_marshal_unmarshal (Codec.mk id some id some id some)
    (fun _ => rfl) (fun _ => rfl) (fun _ => rfl)).1
    ⟨⟨some [1, 2], some [[3], [4]]⟩, some ⟨1, [5]⟩, [6], [7]⟩

/-- C15. `GetPublicKey` returns an error if the setup has not been done: an
actor whose state holds no distributed key and no participants gets the error
"dkg has not been initialized" and no key; an actor whose state holds a
distributed key and a non-empty participant list gets that key and no
error. -/
theorem getPublicKey_needs_setup {Point Address : Type}
    (a : Actor Point Address) :
    (a.startRes.distKey = none → a.startRes.participants = none →
      a.GetPublicKey = (none, some DKGError.notInitialized)) ∧
    (∀ H ps, a.startRes.distKey = some H → a.startRes.participants = some ps →
      ps ≠ [] → a.GetPublicKey = (some H, none)) := by
  constructor
  · intro h1 h2
    simp [Actor.GetPublicKey, state.Done, h1, h2]
  · intro H ps h1 h2 _
    simp [Actor.GetPublicKey, state.Done, h1, h2]

/-- Witness of C15 on the two actors of the test of `GetPublicKey`: the zero
state, then a state with a key and one participant. -/
theorem getPublicKey_needs_setup_witness :
    Actor.GetPublicKey (⟨⟨none, none⟩⟩ : Actor (List Byte) String)
      = (none, some DKGError.notInitialized) ∧
    Actor.GetPublicKey (⟨⟨some [9], some ["node0"]⟩⟩ : Actor (List Byte) String)
      = (some [9], none) :=
  ⟨(getPublicKey_needs_setup ⟨⟨none, none⟩⟩).1 rfl rfl,
   (getPublicKey_needs_setup ⟨⟨some [9], some ["node0"]⟩⟩).2 [9] ["node0"]
     rfl rfl (by decide)⟩

/-! ## The error of the stream and the removal of an admin -/

/-- C21. `NewSemiRandomStream` returns the error "the seed has a wrong size
(too small)" if and only if every one of the first `min(len(seed), 8)` bytes
of the seed is at least 0x80, which includes the empty seed. Every other seed
succeeds and splits into bytes that are at least 0x80, a first byte below 0x80
at an index below 8, and a rest; the stream stores the first 8 bytes and the
integer given to the random source is the zig-zag decoding of the base-128
varint made of the bytes up to that first byte below 0x80, so the bytes after
it do not change the generator. -/
theorem newSemiRandomStream_error_iff (seed : List Byte) :
    ((NewSemiRandomStream seed).2 = some StreamError.wrongSize ↔
      ∀ b ∈ seed.take 8, 128 ≤ b.val) ∧
    (NewSemiRandomStream []).2 = some StreamError.wrongSize ∧
    ((NewSemiRandomStream seed).2 = none ↔ ∃ b ∈ seed.take 8, b.val < 128) ∧
    ((∃ b ∈ seed.take 8, b.val < 128) →
      ∃ pre b rest, seed = pre ++ b :: rest ∧ pre.length < 8 ∧
        (∀ c ∈ pre, 128 ≤ c.val) ∧ b.val < 128) ∧
    (∀ pre b rest, seed = pre ++ b :: rest → pre.length < 8 →
      (∀ c ∈ pre, 128 ≤ c.val) → b.val < 128 →
      NewSemiRandomStream seed
          = (⟨seed.take 8, some (zigzag (base128 (pre ++ [b])))⟩, none) ∧
        ∀ rest2, (NewSemiRandomStream (pre ++ b :: rest2)).1.stream
          = (NewSemiRandomStream seed).1.stream) := by
  have herr : (∀ b ∈ seed.take 8, 128 ≤ b.val) →
      (NewSemiRandomStream seed).2 = some StreamError.wrongSize := by
    intro h
    rw [newSemiRandomStream_take,
      newSemiRandomStream_error (seed.take 8) (by simp) h]
  have hok : (∃ b ∈ seed.take 8, b.val < 128) →
      (NewSemiRandomStream seed).2 = none := by
    intro h
    rw [newSemiRandomStream_take,
      newSemiRandomStream_ok (seed.take 8) (by simp) h]
  have hcases : (∀ b ∈ seed.take 8, 128 ≤ b.val) ∨
      ∃ b ∈ seed.take 8, b.val < 128 := by
    by_cases h : ∃ b ∈ seed.take 8, b.val < 128
    · exact Or.inr h
    · left
      intro b hb
      by_contra hlt
      exact h ⟨b, hb, by omega⟩
  refine ⟨⟨?_, herr⟩, by decide, ⟨?_, hok⟩, ?_, ?_⟩
  · intro h
    rcases hcases with h1 | h2
    · exact h1
    · rw [hok h2] at h
      exact absurd h (by simp)
  · intro h
    rcases hcases with h1 | h2
    · rw [herr h1] at h
      exact absurd h (by simp)
    · exact h2
  · intro h
    obtain ⟨pre, b, rest, e, hpre, hb⟩ := split_first_low (seed.take 8) h
    have hlen : (pre ++ b :: rest).length ≤ 8 := by
      rw [← e]
      simp
    refine ⟨pre, b, rest ++ seed.drop 8, ?_, ?_, hpre, hb⟩
    · have := (List.take_append_drop 8 seed).symm
      rw [e] at this
      simpa using this
    · simp only [List.length_append, List.length_cons] at hlen
      omega
  · intro pre b rest e hlen hpre hb
    subst e
    refine ⟨newSemiRandomStream_value pre b rest hlen hpre hb, ?_⟩
    intro rest2
    rw [newSemiRandomStream_value pre b rest hlen hpre hb,
      newSemiRandomStream_value pre b rest2 hlen hpre hb]

/-- An evaluation of C21 on a seed of five bytes: the varint ends at the third
byte, 0x26, and the two bytes after it change nothing. -/
theorem newSemiRandomStream_error_iff_witness :
    NewSemiRandomStream [0xE5, 0x8E, 0x26, 9, 9]
        = (⟨[0xE5, 0x8E, 0x26, 9, 9], some (-312243)⟩, none) ∧
    zigzag (base128 [0xE5, 0x8E, 0x26]) = -312243 ∧
    ∀ rest2, (NewSemiRandomStream ([0xE5, 0x8E] ++ 0x26 :: rest2)).1.stream
      = (NewSemiRandomStream [0xE5, 0x8E, 0x26, 9, 9]).1.stream :=
  ⟨by decide, by decide,
   ((newSemiRandomStream_error_iff [0xE5, 0x8E, 0x26, 9, 9]).2.2.2.2
      [0xE5, 0x8E] 0x26 [9, 9] rfl (by decide)
      (fun c hc => by
        simp only [List.mem_cons, List.mem_singleton, List.not_mem_nil,
          or_false] at hc
        rcases hc with rfl | rfl <;> decide)
      (by decide)).2⟩

/-- C22. `RemoveAdmin(u)` returns normally, and with an error if and only if
`u` does not parse as an integer or its integer is not in `AdminList`; in
that case the form is unchanged. Otherwise it cuts out the first index that
holds the integer, which is the list with the first occurrence of the integer
erased: the other entries keep their relative order and the list is one
element shorter. -/
theorem removeAdmin_first_occurrence (af : AdminForm) (u : String) :
    ∃ e af2, af.RemoveAdmin u = some (e, af2) ∧
      (e ≠ none ↔ (Atoi u = none ∨ ∃ n, Atoi u = some n ∧ n ∉ af.AdminList)) ∧
      (e ≠ none → af2 = af) ∧
      (e = none → ∃ n k, Atoi u = some n ∧
        af.AdminList.get? k = some n ∧
        (∀ j, j < k → af.AdminList.get? j ≠ some n) ∧
        af2.AdminList = af.AdminList.take k ++ af.AdminList.drop (k + 1) ∧
        af2.AdminList = af.AdminList.erase n ∧
        af2.AdminList.length + 1 = af.AdminList.length ∧
        af2.FormID = af.FormID) := by
  cases hp : Atoi u with
  | none =>
    exact ⟨some AdminError.convertSciper, af,
      by simp [AdminForm.RemoveAdmin, hp], by simp, fun _ => rfl, by simp⟩
  | some n =>
    by_cases hmem : n ∈ af.AdminList
    · obtain ⟨k, hk, hget, hfirst⟩ := isAdminLoop_of_mem n af.AdminList 0 hmem
      have hk2 : isAdminLoop n af.AdminList 0 = (k : Int) := by simpa using hk
      have hklt : k < af.AdminList.length := (List.get?_eq_some.1 hget).1
      have hnn : ¬ ((k : Int) < 0) := by omega
      have hle : k + 1 ≤ af.AdminList.length := hklt
      refine ⟨none, { af with AdminList := af.AdminList.take k
          ++ af.AdminList.drop (k + 1) }, ?_, ?_, ?_, ?_⟩
      · simp only [AdminForm.RemoveAdmin, AdminForm.IsAdmin, hp, hk2, hnn,
          if_false, Int.toNat_ofNat, hle, if_true]
      · simp [hmem]
      · intro h
        exact absurd rfl h
      · intro _
        refine ⟨n, k, rfl, hget, hfirst, rfl,
          erase_first_index af.AdminList n k hget hfirst, ?_, rfl⟩
        simp only [List.length_append, List.length_take, List.length_drop]
        omega
    · have hneg : isAdminLoop n af.AdminList 0 = -1 :=
        (isAdminLoop_eq_neg_one n af.AdminList 0).2 hmem
      refine ⟨some AdminError.retrieveIndex, af, ?_, ?_, fun _ => rfl, by simp⟩
      · simp [AdminForm.RemoveAdmin, AdminForm.IsAdmin, hp, hneg]
      · simp [hmem]

/-- An evaluation of C22 on the list `[7, 5, 3, 5]`: removing "5" cuts out
index 1 and keeps the second 5; removing "9" and "x" fails and changes
nothing. -/
theorem removeAdmin_first_occurrence_witness :
    AdminForm.RemoveAdmin ⟨"form", [7, 5, 3, 5]⟩ "5"
        = some (none, ⟨"form", [7, 3, 5]⟩) ∧
    AdminForm.RemoveAdmin ⟨"form", [7, 5, 3, 5]⟩ "9"
        = some (some AdminError.retrieveIndex, ⟨"form", [7, 5, 3, 5]⟩) ∧
    AdminForm.RemoveAdmin ⟨"form", [7, 5, 3, 5]⟩ "x"
        = some (some AdminError.convertSciper, ⟨"form", [7, 5, 3, 5]⟩) ∧
    ∃ e af2, AdminForm.RemoveAdmin ⟨"form", [7, 5, 3, 5]⟩ "5" = some (e, af2) ∧
      (e ≠ none ↔ (Atoi "5" = none ∨
        ∃ n, Atoi "5" = some n ∧ n ∉ [(7 : Int), 5, 3, 5])) :=
  ⟨by decide, by decide, by decide,
   (removeAdmin_first_occurrence ⟨"form", [7, 5, 3, 5]⟩ "5").imp
     (fun _ h => h.imp (fun _ h2 => ⟨h2.1, h2.2.1⟩))⟩

end DVoting
